import Mathlib

/-!
Verification of the log-viewer synchronization and rendering core.

The development shallowly embeds the webview script (media/main.js), the
shared utility functions (getSeverityClass / mapLevelToClass /
matchesFilePattern) and the host-side debounce engine of LogViewerPanel.ts.
JavaScript strings are modelled as `List Char`; severity CSS classes, which
the source passes around as strings such as "log-error" (with "" meaning
"no severity"), are modelled as `String`.
-/

namespace LogViewer

/-! ## Generic list/string helpers (JS string primitives) -/

/-- JS `a.startsWith(b)` / regex literal-prefix test, on char lists. -/
def isPrefixOfList : List Char → List Char → Bool
  | [], _ => true
  | _ :: _, [] => false
  | c :: cs, d :: ds => c = d && isPrefixOfList cs ds

/-- JS `a.includes(b)`: `sub` occurs as a contiguous substring of `l`. -/
def containsList (sub : List Char) : List Char → Bool
  | [] => isPrefixOfList sub []
  | l@(_ :: t) => isPrefixOfList sub l || containsList sub t

/-- JS `s.split(sep)` for a single-character separator: empty pieces are
kept, and the empty string splits to `[[]]`. -/
def splitOnChar (sep : Char) : List Char → List (List Char)
  | [] => [[]]
  | c :: rest =>
    if c = sep then [] :: splitOnChar sep rest
    else
      match splitOnChar sep rest with
      | p :: ps => (c :: p) :: ps
      | [] => [[c]]

/-- JS `content.split('\n')`. -/
def splitOnNl (l : List Char) : List (List Char) :=
  splitOnChar '\n' l

/-- JS `parts.join(sep)` for a single-character separator. -/
def joinWith (sep : Char) : List (List Char) → List Char
  | [] => []
  | [x] => x
  | x :: rest => x ++ sep :: joinWith sep rest

/-- JS `s.toLowerCase()` (ASCII fragment, which is all the source compares). -/
def lowerL (l : List Char) : List Char :=
  l.map Char.toLower

/-- JS `s.toUpperCase()` (ASCII fragment, which is all the source compares). -/
def upperL (l : List Char) : List Char :=
  l.map Char.toUpper

/-- The character class of the JS regex `\s` (and of `String.prototype.trim`). -/
def isJsSpace (c : Char) : Bool :=
  c = ' ' || c = '\t' || c = '\n' || c = '\r' || c = '\x0b' || c = '\x0c' ||
  c = ' ' || c = ' ' || (0x2000 ≤ c.toNat && c.toNat ≤ 0x200A) ||
  c = ' ' || c = ' ' || c = ' ' || c = ' ' ||
  c = '　' || c = '﻿'

/-- JS `s.trim()`. -/
def trimL (l : List Char) : List Char :=
  ((l.dropWhile isJsSpace).reverse.dropWhile isJsSpace).reverse

/-! ## SeverityClassifier: `getSeverityClass` (media/main.js and the shared
utility module), including the regex
`\|\s*(ERROR|ERR|FATAL|CRITICAL|EXCEPTION|WARN|WARNING|INFO|DEBUG|DBG|TRACE|TRC|VERBOSE|VERB|VRB)\s*\|`
and its bracket twin.  The regex engine is modelled by explicit leftmost
scanning with the alternation tried in source order; `\s*` between a
delimiter and a keyword is deterministic because no keyword starts or ends
with a whitespace character and neither closing delimiter is one. -/

/-- The level keywords, in the alternation order of the source regex. -/
def kwList : List (List Char) :=
  [['E','R','R','O','R'], ['E','R','R'], ['F','A','T','A','L'],
   ['C','R','I','T','I','C','A','L'],
   ['E','X','C','E','P','T','I','O','N'],
   ['W','A','R','N'], ['W','A','R','N','I','N','G'],
   ['I','N','F','O'],
   ['D','E','B','U','G'], ['D','B','G'],
   ['T','R','A','C','E'], ['T','R','C'],
   ['V','E','R','B','O','S','E'], ['V','E','R','B'], ['V','R','B']]

/-- `mapLevelToClass` of the utility module (the same chain of substring
tests is inlined twice in media/main.js): the captured level keyword is
tested with `/ERROR|ERR|FATAL|CRITICAL|EXCEPTION/.test`, etc. -/
def mapLevelToClass (level : List Char) : String :=
  if containsList ['E','R','R','O','R'] level || containsList ['E','R','R'] level ||
     containsList ['F','A','T','A','L'] level ||
     containsList ['C','R','I','T','I','C','A','L'] level ||
     containsList ['E','X','C','E','P','T','I','O','N'] level then "log-error"
  else if containsList ['W','A','R','N'] level ||
     containsList ['W','A','R','N','I','N','G'] level then "log-warn"
  else if level = ['I','N','F','O'] then "log-info"
  else if containsList ['D','E','B','U','G'] level ||
     containsList ['D','B','G'] level then "log-debug"
  else if containsList ['T','R','A','C','E'] level ||
     containsList ['T','R','C'] level then "log-trace"
  else if containsList ['V','E','R','B','O','S','E'] level ||
     containsList ['V','E','R','B'] level ||
     containsList ['V','R','B'] level then "log-verbose"
  else ""

/-- Try the regex alternation at a fixed position: each keyword in source
order, requiring `\s*` and then the closing delimiter after it. -/
def tryKeywords (ks : List (List Char)) (l : List Char) (close : Char) :
    Option (List Char) :=
  match ks with
  | [] => none
  | k :: rest =>
    if isPrefixOfList k l then
      match (l.drop k.length).dropWhile isJsSpace with
      | c :: _ => if c = close then some k else tryKeywords rest l close
      | [] => tryKeywords rest l close
    else tryKeywords rest l close

/-- Attempt the whole delimited-token regex at the head of `l`. -/
def matchAt (openC close : Char) (l : List Char) : Option (List Char) :=
  match l with
  | [] => none
  | c :: rest =>
    if c = openC then tryKeywords kwList (rest.dropWhile isJsSpace) close
    else none

/-- Leftmost unanchored regex search for the delimited-token shape. -/
def scanDelim (openC close : Char) : List Char → Option (List Char)
  | [] => none
  | l@(_ :: t) =>
    match matchAt openC close l with
    | some k => some k
    | none => scanDelim openC close t

/-- `getSeverityClass(line)`: upper-case the line, look for a
pipe-delimited level token first, then a bracketed one; otherwise `''`. -/
def getSeverityClass (line : List Char) : String :=
  let upper := upperL line
  match scanDelim '|' '|' upper with
  | some k => mapLevelToClass k
  | none =>
    match scanDelim '[' ']' upper with
    | some k => mapLevelToClass k
    | none => ""

example : getSeverityClass "[ERROR] Something failed".toList = "log-error" := by decide
example : getSeverityClass "2024-01-01|INFO |message".toList = "log-info" := by decide
example : getSeverityClass "[ error ] lower".toList = "log-error" := by decide
example : getSeverityClass "ERROR occurred".toList = "" := by decide
example : getSeverityClass "[ERROR without closing".toList = "" := by decide
example : getSeverityClass "[VRB] Verbose output".toList = "log-verbose" := by decide
example : getSeverityClass "timestamp |ERR| message".toList = "log-error" := by decide
example : getSeverityClass "time=x level=ERROR msg=y".toList = "" := by decide

/-! ## FilterEngine: per-log filter state and the filtered render pass
(`formatLogContent` / `formatNewLines` of media/main.js).

The source builds an HTML span per included line (with the 1-based line
number, the severity class and the escaped text) and drops excluded lines
(`return null` / `.filter(l => l !== null)`); a rendered line is modelled
by the `Rendered` record carrying exactly those data. -/

/-- `logFilters[logName] = { text, severities }`. -/
structure LogFilter where
  text : List Char
  severities : List String
  deriving DecidableEq, Repr

/-- `defaultSeverities` of media/main.js. -/
def defaultSeverities : List String :=
  ["log-error", "log-warn", "log-info", "log-debug", "log-trace", "log-verbose"]

/-- The filter created lazily by `getLogFilter`. -/
def defaultFilter : LogFilter :=
  { text := [], severities := defaultSeverities }

/-- One line kept by the filtered render: its 1-based number, the severity
class written into the span's class attribute, and the raw text. -/
structure Rendered where
  lineNum : Nat
  sev : String
  text : List Char
  deriving DecidableEq, Repr

/-- The shared per-line loop of `formatLogContent` and `formatNewLines`:
classify, inherit the previous severity over an unclassified line, filter
by severity then by text, and keep input order.  `search` is the
pre-lowercased `filter.text`; `last` is the running `lastSeverityClass`. -/
def formatLinesAux (f : LogFilter) (search : List Char) :
    List (List Char) → Nat → String → List Rendered
  | [], _, _ => []
  | line :: rest, n, last =>
    let sc0 := getSeverityClass line
    let sc := if sc0 = "" then last else sc0
    let keep := (decide (sc = "") || f.severities.contains sc) &&
                (decide (search = []) || containsList search (lowerL line))
    if keep then
      { lineNum := n, sev := sc, text := line } :: formatLinesAux f search rest (n + 1) sc
    else
      formatLinesAux f search rest (n + 1) sc

/-- The three possible outcomes of `formatLogContent`: the "No content"
empty state, the "No matching log lines" empty state, and a non-empty
sequence of rendered lines. -/
inductive RenderResult where
  | noContent
  | noMatching
  | lines (ls : List Rendered)
  deriving DecidableEq, Repr

/-- `formatLogContent(content)` with the active log's filter passed
explicitly (the source reads it via `getLogFilter(activeLog)`). -/
def formatLogContent (f : LogFilter) (content : List Char) : RenderResult :=
  if content = [] then .noContent
  else
    let out := formatLinesAux f (lowerL f.text) (splitOnNl content) 1 ""
    if out = [] then .noMatching else .lines out

/-- `formatNewLines(content, startLineNum, inheritedSeverity)`. -/
def formatNewLines (f : LogFilter) (content : List Char) (startLineNum : Nat)
    (inheritedSeverity : String) : List Rendered :=
  formatLinesAux f (lowerL f.text) (splitOnNl content) startLineNum inheritedSeverity

/-- The rendered lines currently displayed for a render result (the
`.log-line` elements of the view). -/
def displayedOf : RenderResult → List Rendered
  | .lines ls => ls
  | _ => []

/-- `getLastDisplayedSeverity()`: take the last displayed `.log-line`
element, split its class attribute (built as `'log-line ' + severityClass`)
on spaces, and return the first class starting with `log-`; `''` when no
line is displayed.  (Note that `'log-line'` itself starts with `log-`.) -/
def getLastDisplayedSeverity (displayed : List Rendered) : String :=
  match displayed.getLast? with
  | none => ""
  | some r =>
    let classes := splitOnChar ' ' ("log-line ".toList ++ r.sev.toList)
    match classes.find? (fun cls => isPrefixOfList "log-".toList cls) with
    | some cls => String.mk cls
    | none => ""

/-- The running `lastSeverityClass` after a sequence of lines: the
classification of the last line that classified, else the carry-in. -/
def chainFrom (last : String) (l : List (List Char)) : String :=
  l.foldl (fun acc line => if getSeverityClass line = "" then acc else getSeverityClass line) last

/-! ## ContentSynchronizer: the append-vs-full decision of the
`setLogContent` handler. -/

/-- The rendering instruction produced by the handler: replace the whole
view, or append `newLinesText` starting at line `startLineNumber`. -/
inductive RenderInstruction where
  | fullRender (content : List Char)
  | appendRender (newLinesText : List Char) (startLineNumber : Nat)
  deriving DecidableEq, Repr

/-- The decision core of the `setLogContent` handler: `prev` is the cached
`logContents[logName]` (empty if absent), `plc` the recorded
`logLineCounts[logName]` (0 if absent), `n` the arriving content.
`isAppendOnly = prevContent && newContent.startsWith(prevContent) &&
newLineCount > prevLineCount`; the append region is
`newLines.slice(prevLineCount - 1).join('\n')`. -/
def syncDecision (prev : List Char) (plc : Nat) (n : List Char) : RenderInstruction :=
  let newLines := splitOnNl n
  let newLineCount := newLines.length
  let isAppendOnly := !decide (prev = []) && isPrefixOfList prev n &&
    decide (plc < newLineCount)
  if isAppendOnly && decide (0 < plc) then
    .appendRender (joinWith '\n' (newLines.drop (plc - 1))) plc
  else
    .fullRender n

example :
    syncDecision "L1\nL2\n".toList 3 "L1\nL2\nL3\n".toList =
      .appendRender "L3\n".toList 3 := by decide
example :
    syncDecision "L1\nL2\n".toList 3 "L1\nXX\n".toList =
      .fullRender "L1\nXX\n".toList := by decide
example :
    syncDecision "L1\nL2\n".toList 3 "L1\nL2\n".toList =
      .fullRender "L1\nL2\n".toList := by decide

/-! ## LogRegistry: the webview's mutable state and its message/UI
handlers (media/main.js).  The JS objects `logContents`, `logFilters` and
`logLineCounts` are association lists keyed by log name; assignment
updates the existing key or appends a new one, `delete` removes it. -/

/-- Lookup of `m[k]`. -/
def lookupKey {α : Type} (m : List (String × α)) (k : String) : Option α :=
  match m with
  | [] => none
  | e :: rest => if e.1 = k then some e.2 else lookupKey rest k

/-- `m[k] = v`. -/
def setKey {α : Type} (m : List (String × α)) (k : String) (v : α) :
    List (String × α) :=
  match m with
  | [] => [(k, v)]
  | e :: rest => if e.1 = k then (k, v) :: rest else e :: setKey rest k v

/-- `delete m[k]`. -/
def eraseKey {α : Type} (m : List (String × α)) (k : String) :
    List (String × α) :=
  match m with
  | [] => []
  | e :: rest => if e.1 = k then eraseKey rest k else e :: eraseKey rest k

/-- `getLogFilter(name)` creates the filter with defaults when absent; as
a state transformer its effect is to ensure the entry exists. -/
def ensureFilter (m : List (String × LogFilter)) (k : String) :
    List (String × LogFilter) :=
  match lookupKey m k with
  | some _ => m
  | none => setKey m k defaultFilter

/-- The webview's mutable state (the DOM itself is not modelled; the
render side effects are returned as `RenderInstruction`s / request
lists where a handler produces them). -/
structure WState where
  currentSession : String
  activeLog : String
  pinnedLogs : List String
  allLogs : List String
  logContents : List (String × List Char)
  logFilters : List (String × LogFilter)
  logLineCounts : List (String × Nat)
  deriving DecidableEq, Repr

/-- The state of a fresh webview with no persisted `previousState`. -/
def initState : WState :=
  { currentSession := "", activeLog := "", pinnedLogs := [], allLogs := [],
    logContents := [], logFilters := [], logLineCounts := [] }

/-- `selectLog(logName)`: set the active log, `updateFilterUI()` (which
lazily creates the filter), then either render the cached content or post
a `getLogContent` request (a falsy — absent or empty — cache entry posts
the request).  Returns the posted request names. -/
def selectLogStep (st : WState) (name : String) : WState × List String :=
  let st1 := { st with activeLog := name, logFilters := ensureFilter st.logFilters name }
  match lookupKey st1.logContents name with
  | some c => if c = [] then (st1, [name]) else (st1, [])
  | none => (st1, [name])

/-- The removal phase of the `setSessionLogs` handler: install the new
list, delete the content and filter state of every removed log and splice
removed logs out of `pinnedLogs`. -/
def reconcileLogs (st : WState) (logs : List String) : WState :=
  let removedLogs := st.allLogs.filter (fun l => decide (l ∉ logs))
  { st with
    allLogs := logs
    logContents := removedLogs.foldl (fun m l => eraseKey m l) st.logContents
    logFilters := removedLogs.foldl (fun m l => eraseKey m l) st.logFilters
    pinnedLogs := removedLogs.foldl (fun p l => p.erase l) st.pinnedLogs }

/-- The `setSessionLogs` message handler: reconcile the registry against
the new list, request content for genuinely new logs, and reselect the
first listed log if no log is selected or the active one was removed (or
clear the selection when the list is empty).  Returns the `getLogContent`
request names in posting order. -/
def setSessionLogsHandler (st : WState) (logs : List String) : WState × List String :=
  let newLogs := logs.filter (fun l => decide (l ∉ st.allLogs))
  let st1 := reconcileLogs st logs
  match logs with
  | [] => ({ st1 with activeLog := "" }, newLogs)
  | first :: _ =>
    if st1.activeLog = "" ∨ st1.activeLog ∉ logs then
      let r := selectLogStep st1 first
      (r.1, newLogs ++ r.2)
    else
      (st1, newLogs)

/-- The `setLogContent` message handler: cache the content
unconditionally; when the log is the active one, decide append-vs-full
(returned as the render instruction) and record the new line count. -/
def setLogContentHandler (st : WState) (logName : String) (content : List Char) :
    WState × Option RenderInstruction :=
  let prevContent := (lookupKey st.logContents logName).getD []
  let contents := setKey st.logContents logName content
  if st.activeLog = logName then
    let prevLineCount := (lookupKey st.logLineCounts logName).getD 0
    let instr := syncDecision prevContent prevLineCount content
    let newLineCount := (splitOnNl content).length
    ({ st with
        logContents := contents
        logLineCounts := setKey st.logLineCounts logName newLineCount }, some instr)
  else
    ({ st with logContents := contents }, none)

/-- `togglePin(logName)`: splice the name out of `pinnedLogs` when
present, else push it. -/
def togglePinStep (st : WState) (name : String) : WState :=
  if name ∈ st.pinnedLogs then
    { st with pinnedLogs := st.pinnedLogs.erase name }
  else
    { st with pinnedLogs := st.pinnedLogs ++ [name] }

/-- The text-filter input handler: no-op without an active log, else
`getLogFilter(activeLog).text = value`. -/
def setFilterTextStep (st : WState) (text : List Char) : WState :=
  if st.activeLog = "" then st
  else
    let f := (lookupKey st.logFilters st.activeLog).getD defaultFilter
    { st with logFilters := setKey st.logFilters st.activeLog { f with text := text } }

/-- A severity-button click: no-op without an active log, else toggle the
severity's membership in the filter (the button's `active` class mirrors
membership, so the class toggle plus the sync in the source amounts to a
membership toggle; removal splices the first occurrence). -/
def toggleSeverityStep (st : WState) (sev : String) : WState :=
  if st.activeLog = "" then st
  else
    let f := (lookupKey st.logFilters st.activeLog).getD defaultFilter
    let sevs := if sev ∈ f.severities then f.severities.erase sev
                else f.severities ++ [sev]
    { st with logFilters := setKey st.logFilters st.activeLog { f with severities := sevs } }

/-- The `resetState` message handler: clear everything (note
`logLineCounts` is not cleared by the source), then `updateFilterUI()`
runs `getLogFilter('')`, lazily creating a filter under the empty name. -/
def resetStep (st : WState) : WState :=
  { currentSession := "", activeLog := "", pinnedLogs := [], allLogs := [],
    logContents := [], logFilters := ensureFilter [] "",
    logLineCounts := st.logLineCounts }

/-- The operations of the claim's reachability statement: log-list
updates, content arrivals (including stale ones), log selection, pin
toggles, filter edits and resets. -/
inductive WOp where
  | setSessionLogs (logs : List String)
  | setLogContent (name : String) (content : List Char)
  | selectLog (name : String)
  | togglePin (name : String)
  | setFilterText (text : List Char)
  | toggleSeverity (sev : String)
  | reset

/-- State transition of one operation (posted requests dropped). -/
def applyOp (st : WState) : WOp → WState
  | .setSessionLogs logs => (setSessionLogsHandler st logs).1
  | .setLogContent n c => (setLogContentHandler st n c).1
  | .selectLog n => (selectLogStep st n).1
  | .togglePin n => togglePinStep st n
  | .setFilterText t => setFilterTextStep st t
  | .toggleSeverity s => toggleSeverityStep st s
  | .reset => resetStep st

/-- Which operations the UI/message surface can actually produce in a
given state: `selectLog` and `togglePin` are invoked from the sidebar
tabs, the quick picker and the Alt-shortcuts, all of which only offer
pinned or listed names; messages arrive with arbitrary payloads (a
`setLogContent` may be a stale response for a since-removed log). -/
def ValidOp (st : WState) : WOp → Prop
  | .selectLog n => n ∈ st.pinnedLogs ∨ n ∈ st.allLogs
  | .togglePin n => n ∈ st.pinnedLogs ∨ n ∈ st.allLogs
  | _ => True

/-- States reachable from a fresh webview by valid operations. -/
inductive Reachable : WState → Prop where
  | init : Reachable initState
  | step {s : WState} {op : WOp} : Reachable s → ValidOp s op → Reachable (applyOp s op)

/-! ## ChangeDebouncer: `_scheduleFileChangeFlush` / `_flushFileChanges`
of LogViewerPanel.ts.  Wall-clock time is abstracted into event order: an
`ev` is a raw watch callback for a (pattern-matching) file name arriving
within the current debounce window — it adds the name to the pending set
and (re)arms the timer; `fire` is the timer expiring after a quiet
period.  Emitted `filesChanged` batch payloads are collected. -/

/-- Host-side debouncer state: the pending `Set` (insertion order, no
duplicates) and whether a flush timer is armed. -/
structure DbState where
  pending : List String
  armed : Bool
  deriving DecidableEq, Repr

/-- `this._pendingFileChanges.add(logName)`. -/
def addPending (p : List String) (n : String) : List String :=
  if n ∈ p then p else p ++ [n]

/-- A raw change event: accumulate and (re)arm — never flush. -/
def dbEvent (s : DbState) (n : String) : DbState × List (List String) :=
  ({ pending := addPending s.pending n, armed := true }, [])

/-- The timer firing: flush the whole accumulated set as one batch and
clear it (no message when nothing is pending). -/
def dbFire (s : DbState) : DbState × List (List String) :=
  if s.pending = [] then ({ s with armed := false }, [])
  else ({ pending := [], armed := false }, [s.pending])

/-- One debouncer step. -/
inductive DbOp where
  | ev (n : String)
  | fire

/-- Run a sequence of debouncer steps, collecting emitted batches. -/
def runDb (s : DbState) : List DbOp → DbState × List (List String)
  | [] => (s, [])
  | op :: rest =>
    let r := match op with
      | .ev n => dbEvent s n
      | .fire => dbFire s
    let r2 := runDb r.1 rest
    (r2.1, r.2 ++ r2.2)

/-! ## Glob matching: `matchesFilePattern` (utility module; the private
`_matchesFilePattern` of LogViewerPanel.ts is the same code applied to
the configured pattern).  The source translates each pattern to a regex
string by three chained global replaces — `.` to `\.`, `*` to `.*`, `?`
to `.` — and tests `^pattern$` against the whole filename with the
case-insensitive flag.  Only `.` is escaped, so any other regex
metacharacter in a pattern reaches the regex engine unescaped.  The regex
engine is modelled for the fragment such translations produce: sequences
of literal characters, identity escapes and `.` atoms, each optionally
quantified by `*` or `+`; constructs outside this fragment (groups,
classes, alternation, anchors, class escapes, dangling quantifiers —
several of which are `new RegExp` syntax errors that make the source
throw) are outside the model and yield `none`. -/

/-- A regex atom of the modelled fragment: a literal character or the
`.` wildcard. -/
inductive RAtom where
  | lit (c : Char)
  | dot
  deriving DecidableEq, Repr

/-- A quantifier on an atom: exactly one, `*` (zero or more) or `+`
(one or more). -/
inductive RQuant where
  | one
  | star
  | plus
  deriving DecidableEq, Repr

/-- A lexed regex token: an atom, or a postfix `*` / `+`. -/
inductive RTok where
  | atom (a : RAtom)
  | star
  | plus
  deriving DecidableEq, Repr

/-- The glob-to-regex translation of the source:
`.replace(/\./g,'\\.').replace(/\*/g,'.*').replace(/\?/g,'.')`.  The
three chained replaces act per character of the original pattern (each
later replace never rewrites characters introduced by an earlier one). -/
def globToRegex (pat : List Char) : List Char :=
  (pat.map (fun c =>
    if c = '.' then ['\\', '.']
    else if c = '*' then ['.', '*']
    else if c = '?' then ['.']
    else [c])).flatten

/-- Line terminators that the regex `.` does not match in JS. -/
def isRegexNewline (c : Char) : Bool :=
  c = '\n' || c = '\r' || c = '\u2028' || c = '\u2029'

/-- Lex a regex of the modelled fragment; `none` for anything outside it
(including syntax errors such as a trailing backslash, and unsupported
constructs such as groups, classes, alternation or in-pattern anchors). -/
def lexRegex : List Char → Option (List RTok)
  | [] => some []
  | '\\' :: [] => none
  | '\\' :: e :: rest =>
    if e.isAlphanum then none
    else (lexRegex rest).map (fun toks => RTok.atom (RAtom.lit e) :: toks)
  | c :: rest =>
    if c = '(' || c = ')' || c = '[' || c = ']' || c = '{' || c = '}' ||
       c = '|' || c = '^' || c = '$' then none
    else if c = '*' then (lexRegex rest).map (fun toks => RTok.star :: toks)
    else if c = '+' then (lexRegex rest).map (fun toks => RTok.plus :: toks)
    else (lexRegex rest).map (fun toks =>
      RTok.atom (if c = '.' then RAtom.dot else RAtom.lit c) :: toks)

/-- Attach each postfix quantifier to the atom before it; `none` for a
quantifier with nothing to repeat (a `new RegExp` syntax error). -/
def groupItems : List RTok → Option (List (RAtom × RQuant))
  | [] => some []
  | RTok.atom a :: RTok.star :: rest =>
    (groupItems rest).map (fun items => (a, RQuant.star) :: items)
  | RTok.atom a :: RTok.plus :: rest =>
    (groupItems rest).map (fun items => (a, RQuant.plus) :: items)
  | RTok.atom a :: rest =>
    (groupItems rest).map (fun items => (a, RQuant.one) :: items)
  | RTok.star :: _ => none
  | RTok.plus :: _ => none

/-- Parse a regex of the modelled fragment into quantified atoms. -/
def parseItems (l : List Char) : Option (List (RAtom × RQuant)) :=
  match lexRegex l with
  | none => none
  | some toks => groupItems toks

/-- One atom against one character, with the `i` flag (upper-case
comparison) and the JS `.`-does-not-match-line-terminators rule. -/
def atomMatch (a : RAtom) (d : Char) : Bool :=
  match a with
  | RAtom.lit c => Char.toUpper c = Char.toUpper d
  | RAtom.dot => !isRegexNewline d

/-- Anchored backtracking matcher for the parsed regex (existence of a
match, which is all `.test` reports, is insensitive to greediness).
Every step consumes an item or a subject character, so the recursion is
bounded by `items.length + s.length`; the explicit bound keeps the
function structurally recursive. -/
def matchItemsF : Nat → List (RAtom × RQuant) → List Char → Bool
  | 0, _, _ => false
  | _ + 1, [], [] => true
  | _ + 1, [], _ :: _ => false
  | fuel + 1, (a, RQuant.one) :: items, s =>
    (match s with
     | [] => false
     | d :: s2 => atomMatch a d && matchItemsF fuel items s2)
  | fuel + 1, (a, RQuant.plus) :: items, s =>
    (match s with
     | [] => false
     | d :: s2 => atomMatch a d && matchItemsF fuel ((a, RQuant.star) :: items) s2)
  | fuel + 1, (a, RQuant.star) :: items, s =>
    matchItemsF fuel items s ||
      (match s with
       | [] => false
       | d :: s2 => atomMatch a d && matchItemsF fuel ((a, RQuant.star) :: items) s2)

/-- Anchored match (`^...$`) with sufficient fuel. -/
def matchItems (items : List (RAtom × RQuant)) (s : List Char) : Bool :=
  matchItemsF (items.length + s.length + 1) items s

/-- The trimmed, non-empty patterns of the comma-separated list. -/
def patternList (patterns : List Char) : List (List Char) :=
  ((splitOnChar ',' patterns).map trimL).filter (fun p => decide (p ≠ []))

/-- The `.some` loop over the pattern list: compile each pattern's
translated regex in order and test the filename; `some true` on the
first match, `some false` when the list is exhausted, and `none` when a
pattern must be compiled but falls outside the modelled regex fragment
(where `new RegExp` may throw out of the source function). -/
def testPatterns (filename : List Char) : List (List Char) → Option Bool
  | [] => some false
  | pat :: rest =>
    match parseItems (globToRegex pat) with
    | none => none
    | some items =>
      if matchItems items filename then some true else testPatterns filename rest

/-- `matchesFilePattern(filename, patterns)`. -/
def matchesFilePattern (filename : List Char) (patterns : List Char) : Option Bool :=
  testPatterns filename (patternList patterns)

/-- The wildcard reading that the claim asserts for a single pattern,
following the spec: `*` stands for any run of characters, `?` for
exactly one character, every other character for itself, the whole
filename matched case-insensitively.  The explicit bound keeps the
function structurally recursive. -/
def globMatchSpecF : Nat → List Char → List Char → Bool
  | 0, _, _ => false
  | _ + 1, [], [] => true
  | _ + 1, [], _ :: _ => false
  | fuel + 1, c :: ps, s =>
    if c = '*' then
      globMatchSpecF fuel ps s ||
        (match s with
         | [] => false
         | _ :: s2 => globMatchSpecF fuel (c :: ps) s2)
    else if c = '?' then
      (match s with
       | [] => false
       | _ :: s2 => globMatchSpecF fuel ps s2)
    else
      (match s with
       | [] => false
       | d :: s2 => Char.toUpper c = Char.toUpper d && globMatchSpecF fuel ps s2)

/-- The claim's wildcard match with sufficient fuel. -/
def globMatchSpec (p : List Char) (s : List Char) : Bool :=
  globMatchSpecF (p.length + s.length + 1) p s

/-- Patterns whose characters are glob wildcards, `.`, or regex-neutral
literals — no regex metacharacter that the source's translation leaves
unescaped. -/
def benignPattern (pat : List Char) : Bool :=
  pat.all (fun c =>
    !(c = '+' || c = '(' || c = ')' || c = '[' || c = ']' || c = '{' ||
      c = '}' || c = '|' || c = '^' || c = '$' || c = '\\'))

example : matchesFilePattern "app.LOG".toList "*.log".toList = some true := by decide
example : matchesFilePattern "app.log.bak".toList "*.log".toList = some false := by decide
example : matchesFilePattern "app1.log".toList "app?.log".toList = some true := by decide
example : matchesFilePattern "app12.log".toList "app?.log".toList = some false := by decide
example : matchesFilePattern "readme.txt".toList "*.log, *.txt".toList = some true := by decide
example : matchesFilePattern "app.json".toList "*.log, *.txt".toList = some false := by decide
example : matchesFilePattern "app.log".toList "".toList = some false := by decide
example : matchesFilePattern "app.2024.log".toList "*.log".toList = some true := by decide
example : matchesFilePattern "aaa.log".toList "a+.log".toList = some true := by decide
example : matchesFilePattern "a+.log".toList "a+.log".toList = some false := by decide
example : matchesFilePattern "x.log".toList "(x".toList = none := by decide

/-! ## Association-list lemmas -/

theorem lookup_setKey_self {α : Type} (m : List (String × α)) (k : String) (v : α) :
    lookupKey (setKey m k v) k = some v := by
  induction m with
  | nil => simp [setKey, lookupKey]
  | cons e rest ih =>
    by_cases h : e.1 = k
    · simp [setKey, h, lookupKey]
    · simp [setKey, h, lookupKey, ih]

theorem lookup_setKey_ne {α : Type} (m : List (String × α)) (k k2 : String) (v : α)
    (h : k ≠ k2) : lookupKey (setKey m k v) k2 = lookupKey m k2 := by
  induction m with
  | nil => simp [setKey, lookupKey, h]
  | cons e rest ih =>
    by_cases he : e.1 = k
    · simp [setKey, he, lookupKey, h]
    · simp [setKey, he, lookupKey, ih]

theorem lookup_eraseKey_self {α : Type} (m : List (String × α)) (k : String) :
    lookupKey (eraseKey m k) k = none := by
  induction m with
  | nil => simp [eraseKey, lookupKey]
  | cons e rest ih =>
    by_cases h : e.1 = k <;> simp [eraseKey, h, lookupKey, ih]

theorem lookup_eraseKey_ne {α : Type} (m : List (String × α)) (k k2 : String)
    (h : k ≠ k2) : lookupKey (eraseKey m k) k2 = lookupKey m k2 := by
  induction m with
  | nil => simp [eraseKey, lookupKey]
  | cons e rest ih =>
    by_cases he : e.1 = k
    · have he2 : e.1 ≠ k2 := by rw [he]; exact h
      simp [eraseKey, he, lookupKey, he2, ih, h]
    · by_cases h2 : e.1 = k2 <;>
        simp [eraseKey, he, h2, lookupKey, ih, h, Ne.symm h]

/-! ## Splitting the filtered render pass -/

theorem chainFrom_cons (last : String) (x : List Char) (l : List (List Char)) :
    chainFrom last (x :: l) =
      chainFrom (if getSeverityClass x = "" then last else getSeverityClass x) l := rfl

theorem formatLinesAux_append (f : LogFilter) (search : List Char)
    (l1 l2 : List (List Char)) (n : Nat) (last : String) :
    formatLinesAux f search (l1 ++ l2) n last =
      formatLinesAux f search l1 n last ++
        formatLinesAux f search l2 (n + l1.length) (chainFrom last l1) := by
  induction l1 generalizing n last with
  | nil => simp [formatLinesAux, chainFrom]
  | cons x l1 ih =>
    have harr : n + (x :: l1).length = n + 1 + l1.length := by
      simp [List.length_cons]; omega
    simp only [List.cons_append, formatLinesAux, chainFrom_cons, harr]
    split <;> (simp only [List.append_eq]; rw [ih]; split <;> simp)

/-! ## Claim C1: the append-vs-full decision -/

/-- C1: the handler emits `AppendRender` exactly when the cached previous
content is non-empty, the new content starts with it as an exact character
prefix, the new split line count strictly exceeds the recorded previous
line count, and that count is positive, in which case the region is the
lines from index `prevLineCount - 1` onward joined by newlines and the
start line number is `prevLineCount`; in every other case it emits a
`FullRender` of the whole content. -/
theorem claim1_append_decision :
    ∀ (prev : List Char) (plc : Nat) (n : List Char),
      (syncDecision prev plc n =
          .appendRender (joinWith '\n' ((splitOnNl n).drop (plc - 1))) plc
        ↔ prev ≠ [] ∧ isPrefixOfList prev n = true ∧ plc < (splitOnNl n).length ∧ 0 < plc)
      ∧ (¬ (prev ≠ [] ∧ isPrefixOfList prev n = true ∧
            plc < (splitOnNl n).length ∧ 0 < plc) →
          syncDecision prev plc n = .fullRender n) := by
  intro prev plc n
  by_cases h1 : prev = [] <;>
    by_cases h2 : isPrefixOfList prev n <;>
      by_cases h3 : plc < (splitOnNl n).length <;>
        by_cases h4 : 0 < plc <;>
          simp [syncDecision, h1, h2, h3, h4]

/-- Witness for C1 at the spec's own examples: `prev = "L1\nL2\n"` with
recorded count 3; the grown content appends, the divergent one does not. -/
theorem claim1_append_decision_witness :
    syncDecision "L1\nL2\n".toList 3 "L1\nL2\nL3\n".toList =
      .appendRender (joinWith '\n' ((splitOnNl "L1\nL2\nL3\n".toList).drop 2)) 3
    ∧ syncDecision "L1\nL2\n".toList 3 "L1\nXX\n".toList =
      .fullRender "L1\nXX\n".toList :=
  ⟨(claim1_append_decision "L1\nL2\n".toList 3 "L1\nL2\nL3\n".toList).1.mpr (by decide),
   (claim1_append_decision "L1\nL2\n".toList 3 "L1\nXX\n".toList).2 (by decide)⟩

/-! ## Claim C2 (corrected): state updates on content delivery -/

/-- C2 as stated is false: for a delivery to a non-active log the source
updates `logContents` but leaves `logLineCounts` untouched, so the
`lastRenderedLineCount` half of the per-log content state is not updated
for every known log.  Here `"a"` is a known log, content for it arrives
while `"b"` is active, and its recorded line count remains absent. -/
theorem claim2_counterexample :
    ("a" : String) ∈ (WState.mk "" "b" [] ["a", "b"] [] [] []).allLogs
    ∧ (WState.mk "" "b" [] ["a", "b"] [] [] []).activeLog ≠ "a"
    ∧ lookupKey ((setLogContentHandler (WState.mk "" "b" [] ["a", "b"] [] [] [])
        "a" "x".toList).1).logContents "a" = some "x".toList
    ∧ lookupKey ((setLogContentHandler (WState.mk "" "b" [] ["a", "b"] [] [] [])
        "a" "x".toList).1).logLineCounts "a" = none := by
  refine ⟨by decide, by decide, ?_, ?_⟩ <;> rfl

/-- C2 amended: after every delivery the raw content cache is updated
unconditionally, while the recorded line count is updated exactly when the
delivered log is the active one (and is untouched otherwise). -/
theorem claim2_amended (st : WState) (name : String) (content : List Char) :
    lookupKey ((setLogContentHandler st name content).1).logContents name = some content
    ∧ (st.activeLog = name →
        lookupKey ((setLogContentHandler st name content).1).logLineCounts name =
          some (splitOnNl content).length)
    ∧ (st.activeLog ≠ name →
        ((setLogContentHandler st name content).1).logLineCounts = st.logLineCounts) := by
  by_cases h : st.activeLog = name <;>
    simp [setLogContentHandler, h, lookup_setKey_self]

/-- Witness for C2 amended: a delivery to the active log records both the
content and the split line count. -/
theorem claim2_amended_witness :
    lookupKey ((setLogContentHandler (WState.mk "" "a" [] ["a"] [] [] [])
        "a" "x\ny".toList).1).logContents "a" = some "x\ny".toList
    ∧ lookupKey ((setLogContentHandler (WState.mk "" "a" [] ["a"] [] [] [])
        "a" "x\ny".toList).1).logLineCounts "a" =
      some (splitOnNl "x\ny".toList).length :=
  ⟨(claim2_amended (WState.mk "" "a" [] ["a"] [] [] []) "a" "x\ny".toList).1,
   (claim2_amended (WState.mk "" "a" [] ["a"] [] [] []) "a" "x\ny".toList).2.1 rfl⟩

/-! ## Line-splitting lemmas -/

theorem splitOnChar_ne_nil (sep : Char) (l : List Char) : splitOnChar sep l ≠ [] := by
  induction l with
  | nil => simp [splitOnChar]
  | cons c rest ih =>
    by_cases hc : c = sep
    · simp [splitOnChar, hc]
    · cases h : splitOnChar sep rest with
      | nil => exact absurd h ih
      | cons p ps => simp [splitOnChar, hc, h]

theorem sep_not_mem_splitOnChar (sep : Char) (l : List Char) :
    ∀ q ∈ splitOnChar sep l, sep ∉ q := by
  induction l with
  | nil =>
    intro q hq
    simp [splitOnChar] at hq
    simp [hq]
  | cons c rest ih =>
    intro q hq
    by_cases hc : c = sep
    · simp [splitOnChar, hc] at hq
      rcases hq with hq | hq
      · simp [hq]
      · exact ih q hq
    · cases h : splitOnChar sep rest with
      | nil => exact absurd h (splitOnChar_ne_nil sep rest)
      | cons p ps =>
        simp [splitOnChar, hc, h] at hq
        rcases hq with hq | hq
        · subst hq
          intro hmem
          rcases List.mem_cons.mp hmem with hm | hm
          · exact hc hm.symm
          · exact ih p (by rw [h]; exact List.mem_cons_self p ps) hm
        · exact ih q (by rw [h]; exact List.mem_cons_of_mem p hq)

theorem splitOnChar_eq_single (sep : Char) (x : List Char) (hx : sep ∉ x) :
    splitOnChar sep x = [x] := by
  induction x with
  | nil => simp [splitOnChar]
  | cons c x2 ih =>
    have hc : ¬ c = sep := fun h => hx (h ▸ List.mem_cons_self c x2)
    have hx2 : sep ∉ x2 := fun h => hx (List.mem_cons_of_mem c h)
    simp [splitOnChar, hc, ih hx2]

theorem splitOnChar_append_sep (sep : Char) (x rest : List Char) (hx : sep ∉ x) :
    splitOnChar sep (x ++ sep :: rest) = x :: splitOnChar sep rest := by
  induction x with
  | nil => simp [splitOnChar]
  | cons c x2 ih =>
    have hc : ¬ c = sep := fun h => hx (h ▸ List.mem_cons_self c x2)
    have hx2 : sep ∉ x2 := fun h => hx (List.mem_cons_of_mem c h)
    simp [splitOnChar, hc, ih hx2]

theorem splitOnChar_joinWith (sep : Char) (ps : List (List Char)) (hps : ps ≠ [])
    (hfree : ∀ q ∈ ps, sep ∉ q) : splitOnChar sep (joinWith sep ps) = ps := by
  induction ps with
  | nil => exact absurd rfl hps
  | cons x ps2 ih =>
    cases ps2 with
    | nil => exact splitOnChar_eq_single sep x (hfree x (List.mem_cons_self x []))
    | cons y ps3 =>
      rw [show joinWith sep (x :: y :: ps3) = x ++ sep :: joinWith sep (y :: ps3) from rfl]
      rw [splitOnChar_append_sep sep x _ (hfree x (List.mem_cons_self x (y :: ps3)))]
      rw [ih (List.cons_ne_nil y ps3) (fun q hq => hfree q (List.mem_cons_of_mem x hq))]

theorem isPrefixOfList_exists (p n : List Char) :
    isPrefixOfList p n = true ↔ ∃ s, p ++ s = n := by
  induction p generalizing n with
  | nil => simp [isPrefixOfList]
  | cons c cs ih =>
    cases n with
    | nil => simp [isPrefixOfList]
    | cons d ds =>
      simp only [isPrefixOfList, Bool.and_eq_true, decide_eq_true_eq, ih,
        List.cons_append, List.cons.injEq]
      constructor
      · rintro ⟨rfl, s, rfl⟩
        exact ⟨s, rfl, rfl⟩
      · rintro ⟨s, rfl, rfl⟩
        exact ⟨rfl, s, rfl⟩

theorem splitOnChar_append (sep : Char) (a b : List Char) :
    ∃ front last, splitOnChar sep a = front ++ [last] ∧
      splitOnChar sep (a ++ b) =
        front ++ ((last ++ (splitOnChar sep b).headD []) :: (splitOnChar sep b).tail) := by
  induction a with
  | nil =>
    refine ⟨[], [], rfl, ?_⟩
    obtain ⟨h, t, e⟩ := List.exists_cons_of_ne_nil (splitOnChar_ne_nil sep b)
    rw [List.nil_append, e]
    simp
  | cons c a2 ih =>
    obtain ⟨front, last, e1, e2⟩ := ih
    by_cases hc : c = sep
    · exact ⟨[] :: front, last, by simp [splitOnChar, hc, e1],
        by simp [splitOnChar, hc, e2]⟩
    · cases front with
      | nil =>
        simp only [List.nil_append] at e1 e2
        refine ⟨[], c :: last, ?_, ?_⟩
        · simp [splitOnChar, hc, e1]
        · simp [splitOnChar, hc, e2]
      | cons f0 f1 =>
        simp only [List.cons_append] at e1 e2
        refine ⟨(c :: f0) :: f1, last, ?_, ?_⟩
        · simp [splitOnChar, hc, e1]
        · simp [splitOnChar, hc, e2]

theorem syncDecision_appendRender_inv (p : List Char) (plc : Nat) (n : List Char)
    (region : List Char) (start : Nat)
    (h : syncDecision p plc n = .appendRender region start) :
    p ≠ [] ∧ isPrefixOfList p n = true ∧ plc < (splitOnNl n).length ∧ 0 < plc
    ∧ region = joinWith '\n' ((splitOnNl n).drop (plc - 1)) ∧ start = plc := by
  by_cases h1 : p = [] <;> by_cases h2 : isPrefixOfList p n <;>
    by_cases h3 : plc < (splitOnNl n).length <;> by_cases h4 : 0 < plc <;>
      simp [syncDecision, h1, h2, h3, h4] at h
  exact ⟨h1, h2, h3, h4, h.1.symm, h.2.symm⟩

/-! ## Claim C3 (corrected): incremental append vs full render -/

/-- C3 as stated is false on the code.  With the default filter,
`P = "[INFO] a\n"` rendered and cached with line count 2, and
`N = "[INFO] a\ncont\n"` arriving, the sync decision is an `AppendRender`
of `"cont\n"` at line 2; but `getLastDisplayedSeverity` returns the class
`"log-line"` (the first class of the last displayed line's attribute that
starts with `log-`), so the incremental pass inherits `"log-line"`,
excludes every appended line and renders nothing, while a full render of
`N` includes line 2 (`cont`) with severity `log-info`. -/
theorem claim3_counterexample :
    syncDecision "[INFO] a\n".toList 2 "[INFO] a\ncont\n".toList =
      .appendRender "cont\n".toList 2
    ∧ getLastDisplayedSeverity (displayedOf (formatLogContent defaultFilter
        "[INFO] a\n".toList)) = "log-line"
    ∧ formatNewLines defaultFilter "cont\n".toList 2
        (getLastDisplayedSeverity (displayedOf (formatLogContent defaultFilter
          "[INFO] a\n".toList))) = []
    ∧ ⟨2, "log-info", "cont".toList⟩ ∈ formatLinesAux defaultFilter
        (lowerL defaultFilter.text) (splitOnNl "[INFO] a\ncont\n".toList) 1 "" := by
  refine ⟨?_, ?_, ?_, ?_⟩ <;> decide

/-- C3 amended: under the append condition (with the recorded count equal
to P's split line count), the full filtered render of N splits into the
render of its first `prevLineCount - 1` lines — which are exactly P's
first `prevLineCount - 1` lines — followed by the incremental pass over
the append region, provided the incremental pass is seeded with the
severity-chain state over those first lines (rather than with the code's
last-displayed-class query). -/
theorem claim3_amended (f : LogFilter) (p n : List Char) (plc : Nat) (region : List Char)
    (hsync : syncDecision p plc n = .appendRender region plc)
    (hplc : plc = (splitOnNl p).length) :
    (formatLinesAux f (lowerL f.text) (splitOnNl n) 1 "" =
      formatLinesAux f (lowerL f.text) ((splitOnNl n).take (plc - 1)) 1 ""
        ++ formatNewLines f region plc (chainFrom "" ((splitOnNl n).take (plc - 1))))
    ∧ (splitOnNl n).take (plc - 1) = (splitOnNl p).take (plc - 1) := by
  obtain ⟨hp, hpre, hlt, hpos, hregion, -⟩ :=
    syncDecision_appendRender_inv p plc n region plc hsync
  constructor
  · have hfree : ∀ q ∈ (splitOnNl n).drop (plc - 1), '\n' ∉ q := fun q hq =>
      sep_not_mem_splitOnChar '\n' n q (List.drop_subset _ _ hq)
    have hdroplen : 0 < ((splitOnNl n).drop (plc - 1)).length := by
      rw [List.length_drop]
      omega
    have hsplitregion : splitOnNl region = (splitOnNl n).drop (plc - 1) := by
      rw [hregion]
      exact splitOnChar_joinWith '\n' _ (List.length_pos.mp hdroplen) hfree
    have htake : ((splitOnNl n).take (plc - 1)).length = plc - 1 := by
      rw [List.length_take]
      omega
    have hidx : 1 + (plc - 1) = plc := by omega
    conv_lhs => rw [← List.take_append_drop (plc - 1) (splitOnNl n)]
    rw [formatLinesAux_append, formatNewLines, hsplitregion, htake, hidx]
  · obtain ⟨s, hs⟩ := (isPrefixOfList_exists p n).mp hpre
    obtain ⟨front, last, e1, e2⟩ := splitOnChar_append '\n' p s
    have hfl : (splitOnNl p).length = front.length + 1 := by
      rw [show splitOnNl p = front ++ [last] from e1]
      simp
    have hfl2 : plc - 1 = front.length := by omega
    rw [← hs, hfl2]
    rw [show splitOnNl (p ++ s) =
      front ++ ((last ++ (splitOnChar '\n' s).headD []) ::
        (splitOnChar '\n' s).tail) from e2]
    rw [show splitOnNl p = front ++ [last] from e1]
    rw [List.take_left, List.take_left]

/-- Witness for C3 amended at `P = "L1\n"`, `N = "L1\nL2\n"`, recorded
count 2 and region `"L2\n"`. -/
theorem claim3_amended_witness :
    syncDecision "L1\n".toList 2 "L1\nL2\n".toList = .appendRender "L2\n".toList 2
    ∧ ((formatLinesAux defaultFilter (lowerL defaultFilter.text)
          (splitOnNl "L1\nL2\n".toList) 1 "" =
        formatLinesAux defaultFilter (lowerL defaultFilter.text)
            ((splitOnNl "L1\nL2\n".toList).take (2 - 1)) 1 ""
          ++ formatNewLines defaultFilter "L2\n".toList 2
              (chainFrom "" ((splitOnNl "L1\nL2\n".toList).take (2 - 1))))
        ∧ (splitOnNl "L1\nL2\n".toList).take (2 - 1) =
            (splitOnNl "L1\n".toList).take (2 - 1)) :=
  ⟨by decide,
   claim3_amended defaultFilter "L1\n".toList "L1\nL2\n".toList 2 "L2\n".toList
     (by decide) (by decide)⟩

/-! ## Claim C4: severity inheritance in the filter pass -/

/-- C4: in any line sequence, a line classifying as none after some
earlier line classified reports the inherited (most recent non-none)
severity and is kept exactly when that severity is enabled (and the text
filter passes); with severity inheritance the spec's three-line example is
entirely excluded when `error` is disabled and entirely included, all
reporting `log-error`, when only `error` is enabled; and a none-classified
line with no prior classification reports no severity, is never excluded
by severity filtering, and is excluded exactly by a non-empty text query
it does not case-insensitively contain. -/
theorem claim4_severity_inheritance :
    (∀ (f : LogFilter) (l1 : List (List Char)) (x : List Char) (l2 : List (List Char)),
      getSeverityClass x = "" → chainFrom "" l1 ≠ "" →
        formatLinesAux f (lowerL f.text) (l1 ++ x :: l2) 1 "" =
          formatLinesAux f (lowerL f.text) l1 1 "" ++
            (if (f.severities.contains (chainFrom "" l1) &&
                 (decide (lowerL f.text = []) ||
                   containsList (lowerL f.text) (lowerL x))) = true
             then { lineNum := 1 + l1.length, sev := chainFrom "" l1, text := x } ::
               formatLinesAux f (lowerL f.text) l2 (1 + l1.length + 1) (chainFrom "" l1)
             else formatLinesAux f (lowerL f.text) l2 (1 + l1.length + 1) (chainFrom "" l1)))
    ∧ (∀ (f : LogFilter) (l1 : List (List Char)) (x : List Char) (l2 : List (List Char)),
      getSeverityClass x = "" → chainFrom "" l1 = "" →
        formatLinesAux f (lowerL f.text) (l1 ++ x :: l2) 1 "" =
          formatLinesAux f (lowerL f.text) l1 1 "" ++
            (if (decide (lowerL f.text = []) ||
                  containsList (lowerL f.text) (lowerL x)) = true
             then { lineNum := 1 + l1.length, sev := "", text := x } ::
               formatLinesAux f (lowerL f.text) l2 (1 + l1.length + 1) ""
             else formatLinesAux f (lowerL f.text) l2 (1 + l1.length + 1) ""))
    ∧ formatLogContent
        ⟨[], ["log-warn", "log-info", "log-debug", "log-trace", "log-verbose"]⟩
        "[ERROR] boom\n  at frame 1\n  at frame 2".toList = .noMatching
    ∧ formatLogContent ⟨[], ["log-error"]⟩
        "[ERROR] boom\n  at frame 1\n  at frame 2".toList =
      .lines [⟨1, "log-error", "[ERROR] boom".toList⟩,
              ⟨2, "log-error", "  at frame 1".toList⟩,
              ⟨3, "log-error", "  at frame 2".toList⟩] := by
  refine ⟨?_, ?_, by decide, by decide⟩
  · intro f l1 x l2 hx hs
    rw [formatLinesAux_append]
    simp [formatLinesAux, hx, hs]
  · intro f l1 x l2 hx hs
    rw [formatLinesAux_append]
    simp [formatLinesAux, hx, hs]

/-- Witness for C4: the inherited-severity clause applied to the spec's
example with only `error` enabled — the continuation line reports
`log-error` and is kept. -/
theorem claim4_severity_inheritance_witness :
    getSeverityClass "  at frame 1".toList = ""
    ∧ chainFrom "" ["[ERROR] boom".toList] ≠ ""
    ∧ formatLinesAux ⟨[], ["log-error"]⟩ (lowerL ([] : List Char))
        (["[ERROR] boom".toList] ++ "  at frame 1".toList :: []) 1 "" =
      formatLinesAux ⟨[], ["log-error"]⟩ (lowerL ([] : List Char))
          ["[ERROR] boom".toList] 1 "" ++
        (if ((["log-error"] : List String).contains
              (chainFrom "" ["[ERROR] boom".toList]) &&
             (decide (lowerL ([] : List Char) = []) ||
               containsList (lowerL ([] : List Char))
                 (lowerL "  at frame 1".toList))) = true
         then { lineNum := 1 + (["[ERROR] boom".toList] :
                  List (List Char)).length,
                sev := chainFrom "" ["[ERROR] boom".toList],
                text := "  at frame 1".toList } ::
           formatLinesAux ⟨[], ["log-error"]⟩ (lowerL ([] : List Char)) []
             (1 + (["[ERROR] boom".toList] : List (List Char)).length + 1)
             (chainFrom "" ["[ERROR] boom".toList])
         else formatLinesAux ⟨[], ["log-error"]⟩ (lowerL ([] : List Char)) []
             (1 + (["[ERROR] boom".toList] : List (List Char)).length + 1)
             (chainFrom "" ["[ERROR] boom".toList])) :=
  ⟨by decide, by decide,
   claim4_severity_inheritance.1 ⟨[], ["log-error"]⟩ ["[ERROR] boom".toList]
     "  at frame 1".toList [] (by decide) (by decide)⟩

/-! ## Scanner lemmas for the severity classifier -/

/-- Keyword facts used by the scanner proofs: every keyword of the
alternation is non-empty and consists of characters that are neither
whitespace nor a closing delimiter. -/
theorem kwList_chars :
    ∀ k ∈ kwList, k ≠ [] ∧ ∀ c ∈ k, isJsSpace c = false ∧ c ≠ '|' ∧ c ≠ ']' := by
  decide

theorem isPrefixOfList_self_append (k t : List Char) :
    isPrefixOfList k (k ++ t) = true := by
  induction k with
  | nil => rfl
  | cons c cs ih => simp [isPrefixOfList, ih]

theorem dropWhile_spaces_append (w l : List Char)
    (hw : ∀ d ∈ w, isJsSpace d = true) :
    (w ++ l).dropWhile isJsSpace = l.dropWhile isJsSpace := by
  induction w with
  | nil => rfl
  | cons d w2 ih =>
    have hd : isJsSpace d = true := hw d (List.mem_cons_self d w2)
    rw [List.cons_append]
    simp only [List.dropWhile, hd]
    exact ih (fun e he => hw e (List.mem_cons_of_mem d he))

/-- One attempt of the delimited-token regex with a fixed keyword at a
fixed position: the keyword must be a literal prefix and, after optional
whitespace, the closing delimiter must follow. -/
def attemptKw (k l : List Char) (close : Char) : Bool :=
  isPrefixOfList k l &&
    (match (l.drop k.length).dropWhile isJsSpace with
     | c :: _ => c = close
     | [] => false)

theorem tryKeywords_cons (k : List Char) (ks : List (List Char)) (l : List Char)
    (close : Char) :
    tryKeywords (k :: ks) l close =
      if attemptKw k l close = true then some k else tryKeywords ks l close := by
  by_cases hp : isPrefixOfList k l = true
  · cases hdw : (l.drop k.length).dropWhile isJsSpace with
    | nil => simp [tryKeywords, attemptKw, hp, hdw]
    | cons c t =>
      by_cases hc : c = close <;> simp [tryKeywords, attemptKw, hp, hdw, hc]
  · have hp2 : isPrefixOfList k l = false := by
      revert hp
      cases isPrefixOfList k l <;> simp
    simp [tryKeywords, attemptKw, hp2]

theorem tryKeywords_first (ks : List (List Char)) (l : List Char) (close : Char)
    (k0 : List Char) (hm : k0 ∈ ks)
    (hfail : ∀ k2 ∈ ks, k2 ≠ k0 → attemptKw k2 l close = false)
    (hsucc : attemptKw k0 l close = true) :
    tryKeywords ks l close = some k0 := by
  induction ks with
  | nil => exact absurd hm (List.not_mem_nil k0)
  | cons k ks ih =>
    rw [tryKeywords_cons]
    by_cases hk : k = k0
    · subst hk
      rw [if_pos hsucc]
    · have hf : attemptKw k l close = false := hfail k (List.mem_cons_self k ks) hk
      rw [hf]
      simp only [Bool.false_eq_true, if_false]
      exact ih ((List.mem_cons.mp hm).resolve_left (fun h => hk h.symm))
        (fun k2 h2 hne => hfail k2 (List.mem_cons_of_mem k h2) hne)

theorem attemptKw_self (k0 w2 rest : List Char) (close : Char)
    (hw2 : ∀ d ∈ w2, isJsSpace d = true) (hclose : isJsSpace close = false) :
    attemptKw k0 (k0 ++ (w2 ++ close :: rest)) close = true := by
  unfold attemptKw
  rw [isPrefixOfList_self_append, List.drop_left, dropWhile_spaces_append _ _ hw2]
  simp [List.dropWhile, hclose]

theorem attemptKw_ne (k0 k2 w2 rest : List Char) (close : Char)
    (hk0 : k0 ∈ kwList) (hk2 : k2 ∈ kwList) (hne : k2 ≠ k0)
    (hw2 : ∀ d ∈ w2, isJsSpace d = true)
    (hclose : close = '|' ∨ close = ']') :
    attemptKw k2 (k0 ++ (w2 ++ close :: rest)) close = false := by
  by_cases hp : isPrefixOfList k2 (k0 ++ (w2 ++ close :: rest)) = true
  · have hpre : k2 <+: k0 ++ (w2 ++ close :: rest) :=
      (isPrefixOfList_exists _ _).mp hp
    rcases List.prefix_or_prefix_of_prefix hpre (List.prefix_append k0 _) with hAB | hBA
    · -- k2 is a proper prefix of k0: the close-delimiter check fails on a
      -- remaining keyword character.
      have hlt : k2.length < k0.length := by
        rcases Nat.lt_or_ge k2.length k0.length with h | h
        · exact h
        · exact absurd (hAB.eq_of_length (Nat.le_antisymm hAB.length_le h)) hne
      have hdrop : (k0 ++ (w2 ++ close :: rest)).drop k2.length =
          k0.drop k2.length ++ (w2 ++ close :: rest) :=
        List.drop_append_of_le_length (Nat.le_of_lt hlt)
      obtain ⟨c, t, hct⟩ := List.exists_cons_of_ne_nil
        (show k0.drop k2.length ≠ [] from by
          intro h
          have hlen := congrArg List.length h
          rw [List.length_drop] at hlen
          simp at hlen
          omega)
      have hcmem : c ∈ k0 := List.drop_subset _ _ (hct ▸ List.mem_cons_self c t)
      have hcf := (kwList_chars k0 hk0).2 c hcmem
      have hmatch : ((k0 ++ (w2 ++ close :: rest)).drop k2.length).dropWhile isJsSpace =
          c :: (t ++ (w2 ++ close :: rest)) := by
        rw [hdrop, hct, List.cons_append]
        simp [List.dropWhile, hcf.1]
      unfold attemptKw
      rw [hmatch]
      rcases hclose with rfl | rfl
      · simp [hcf.2.1]
      · simp [hcf.2.2]
    · -- k0 is a proper prefix of k2: k2 would have to continue with a
      -- whitespace or delimiter character, which no keyword contains.
      obtain ⟨k3, hk3⟩ := hBA
      have hk3ne : k3 ≠ [] := by
        intro h
        rw [h, List.append_nil] at hk3
        exact hne hk3.symm
      have hk3pre : k3 <+: (w2 ++ close :: rest) := by
        rw [← hk3] at hpre
        exact (List.prefix_append_right_inj k0).mp hpre
      obtain ⟨c, k4, hc⟩ := List.exists_cons_of_ne_nil hk3ne
      have hcmem : c ∈ k2 := by
        rw [← hk3, hc]
        exact List.mem_append.mpr (Or.inr (List.mem_cons_self c k4))
      have hcf := (kwList_chars k2 hk2).2 c hcmem
      obtain ⟨t2, ht2⟩ := hk3pre
      rw [hc] at ht2
      cases w2 with
      | nil =>
        rw [List.cons_append, List.nil_append] at ht2
        have hceq : c = close := (List.cons.injEq _ _ _ _ ▸ ht2).1
        rcases hclose with rfl | rfl
        · exact absurd hceq hcf.2.1
        · exact absurd hceq hcf.2.2
      | cons d w2x =>
        have hd : isJsSpace d = true := hw2 d (List.mem_cons_self d w2x)
        rw [List.cons_append, List.cons_append] at ht2
        have hceq : c = d := (List.cons.injEq _ _ _ _ ▸ ht2).1
        rw [hceq] at hcf
        rw [hcf.1] at hd
        exact absurd hd (by simp)
  · have hp2 : isPrefixOfList k2 (k0 ++ (w2 ++ close :: rest)) = false := by
      revert hp
      cases isPrefixOfList k2 (k0 ++ (w2 ++ close :: rest)) <;> simp
    unfold attemptKw
    rw [hp2]
    simp

theorem matchAt_hit (o close : Char) (w1 k0 w2 rest : List Char)
    (hw1 : ∀ d ∈ w1, isJsSpace d = true) (hw2 : ∀ d ∈ w2, isJsSpace d = true)
    (hk : k0 ∈ kwList) (hclose : close = '|' ∨ close = ']') :
    matchAt o close (o :: (w1 ++ (k0 ++ (w2 ++ close :: rest)))) = some k0 := by
  have hclosens : isJsSpace close = false := by
    rcases hclose with rfl | rfl <;> decide
  obtain ⟨c, t, hct⟩ := List.exists_cons_of_ne_nil (kwList_chars k0 hk).1
  have hcns : isJsSpace c = false :=
    ((kwList_chars k0 hk).2 c (hct ▸ List.mem_cons_self c t)).1
  show (if o = o then
      tryKeywords kwList ((w1 ++ (k0 ++ (w2 ++ close :: rest))).dropWhile isJsSpace) close
    else none) = some k0
  rw [if_pos rfl, dropWhile_spaces_append _ _ hw1]
  rw [show (k0 ++ (w2 ++ close :: rest)).dropWhile isJsSpace =
      k0 ++ (w2 ++ close :: rest) from by
    rw [hct, List.cons_append]
    simp [List.dropWhile, hcns]]
  exact tryKeywords_first kwList _ close k0 hk
    (fun k2 h2 hne => attemptKw_ne k0 k2 w2 rest close hk h2 hne hw2 hclose)
    (attemptKw_self k0 w2 rest close hw2 hclosens)

theorem scanDelim_skip (o close : Char) (a ys : List Char) (ha : o ∉ a) :
    scanDelim o close (a ++ ys) = scanDelim o close ys := by
  induction a with
  | nil => rfl
  | cons c a2 ih =>
    have hc : ¬ c = o := fun h => ha (h ▸ List.mem_cons_self c a2)
    have ha2 : o ∉ a2 := fun h => ha (List.mem_cons_of_mem c h)
    show (match matchAt o close (c :: (a2 ++ ys)) with
      | some k => some k
      | none => scanDelim o close (a2 ++ ys)) = scanDelim o close ys
    rw [show matchAt o close (c :: (a2 ++ ys)) = none from by simp [matchAt, hc]]
    exact ih ha2

theorem scanDelim_none (o close : Char) (l : List Char) (h : o ∉ l) :
    scanDelim o close l = none := by
  rw [← List.append_nil l, scanDelim_skip o close l [] h]
  rfl

theorem scanDelim_hit (o close : Char) (a w1 k0 w2 b : List Char) (ha : o ∉ a)
    (hw1 : ∀ d ∈ w1, isJsSpace d = true) (hw2 : ∀ d ∈ w2, isJsSpace d = true)
    (hk : k0 ∈ kwList) (hclose : close = '|' ∨ close = ']') :
    scanDelim o close (a ++ o :: (w1 ++ (k0 ++ (w2 ++ close :: b)))) = some k0 := by
  rw [scanDelim_skip o close a _ ha]
  show (match matchAt o close (o :: (w1 ++ (k0 ++ (w2 ++ close :: b)))) with
    | some k => some k
    | none => scanDelim o close (w1 ++ (k0 ++ (w2 ++ close :: b)))) = some k0
  rw [matchAt_hit o close w1 k0 w2 b hw1 hw2 hk hclose]

/-! ## Claim C5: the severity classifier -/

/-- C5: for any line containing a level keyword enclosed in pipes (or, on
a pipe-free line, in brackets) — case-insensitively, with optional
whitespace between the delimiters and the keyword, the pipe shape taking
priority over the bracket shape — `getSeverityClass` returns the
keyword's alias-group class; a line whose upper-casing contains neither a
`|` nor a `[` (in particular a bare keyword with no delimiter) classifies
as none, as do the spec's unclosed-delimiter examples. -/
theorem claim5_classifier :
    (∀ (a w1 k w2 b : List Char),
        '|' ∉ upperL a →
        (∀ d ∈ upperL w1, isJsSpace d = true) →
        (∀ d ∈ upperL w2, isJsSpace d = true) →
        upperL k ∈ kwList →
        getSeverityClass (a ++ '|' :: (w1 ++ (k ++ (w2 ++ '|' :: b)))) =
          mapLevelToClass (upperL k))
    ∧ (∀ (a w1 k w2 b : List Char),
        '|' ∉ upperL a → '|' ∉ upperL b → '[' ∉ upperL a →
        (∀ d ∈ upperL w1, isJsSpace d = true) →
        (∀ d ∈ upperL w2, isJsSpace d = true) →
        upperL k ∈ kwList →
        getSeverityClass (a ++ '[' :: (w1 ++ (k ++ (w2 ++ ']' :: b)))) =
          mapLevelToClass (upperL k))
    ∧ (∀ l : List Char, '|' ∉ upperL l → '[' ∉ upperL l → getSeverityClass l = "")
    ∧ getSeverityClass "ERROR occurred".toList = ""
    ∧ getSeverityClass "[ERROR without closing".toList = ""
    ∧ getSeverityClass "|INFO unclosed".toList = "" := by
  refine ⟨?_, ?_, ?_, by decide, by decide, by decide⟩
  · intro a w1 k w2 b ha hw1 hw2 hk
    have hdec : upperL (a ++ '|' :: (w1 ++ (k ++ (w2 ++ '|' :: b)))) =
        upperL a ++ '|' :: (upperL w1 ++ (upperL k ++ (upperL w2 ++ '|' :: upperL b))) := by
      simp [upperL, (by decide : Char.toUpper '|' = '|')]
    simp only [getSeverityClass, hdec]
    rw [scanDelim_hit '|' '|' (upperL a) (upperL w1) (upperL k) (upperL w2) (upperL b)
      ha hw1 hw2 hk (Or.inl rfl)]
  · intro a w1 k w2 b hpa hpb hba hw1 hw2 hk
    have hdec : upperL (a ++ '[' :: (w1 ++ (k ++ (w2 ++ ']' :: b)))) =
        upperL a ++ '[' :: (upperL w1 ++ (upperL k ++ (upperL w2 ++ ']' :: upperL b))) := by
      simp [upperL, (by decide : Char.toUpper '[' = '['),
        (by decide : Char.toUpper ']' = ']')]
    have hnopipe : '|' ∉
        upperL a ++ '[' :: (upperL w1 ++ (upperL k ++ (upperL w2 ++ ']' :: upperL b))) := by
      intro hmem
      simp only [List.mem_append, List.mem_cons] at hmem
      rcases hmem with h | h | h | h | h | h | h
      · exact hpa h
      · exact absurd h (by decide)
      · exact absurd (hw1 '|' h) (by decide)
      · exact ((kwList_chars _ hk).2 '|' h).2.1 rfl
      · exact absurd (hw2 '|' h) (by decide)
      · exact absurd h (by decide)
      · exact hpb h
    simp only [getSeverityClass, hdec]
    rw [scanDelim_none '|' '|' _ hnopipe]
    rw [scanDelim_hit '[' ']' (upperL a) (upperL w1) (upperL k) (upperL w2) (upperL b)
      hba hw1 hw2 hk (Or.inr rfl)]
  · intro l h1 h2
    simp only [getSeverityClass]
    rw [scanDelim_none '|' '|' _ h1, scanDelim_none '[' ']' _ h2]

/-- Witness for C5: a mixed-case bracketed keyword with interior
whitespace, surrounded by prose, classifies to its alias group. -/
theorem claim5_classifier_witness :
    getSeverityClass ("x ".toList ++ '[' :: (" ".toList ++ ("eRRoR".toList ++
        (" ".toList ++ ']' :: " boom".toList)))) =
      mapLevelToClass (upperL "eRRoR".toList)
    ∧ mapLevelToClass (upperL "eRRoR".toList) = "log-error" :=
  ⟨claim5_classifier.2.1 "x ".toList " ".toList "eRRoR".toList " ".toList " boom".toList
      (by decide) (by decide) (by decide) (by decide) (by decide) (by decide),
   by decide⟩

/-! ## Claim C6: debounced batching of raw change events -/

/-- C6: three raw events naming `a`, `b`, `a` within one window followed
by the timer firing produce exactly one `filesChanged` batch whose payload
is the duplicate-free set `{a, b}`, and the flush clears the pending set;
moreover every raw event only accumulates and (re)arms the timer — it
never emits — and a fire with a non-empty pending set flushes exactly that
set and clears it. -/
theorem claim6_debounce_batch :
    ∀ (a b : String), a ≠ b →
      runDb ⟨[], false⟩ [.ev a, .ev b, .ev a, .fire] = (⟨[], false⟩, [[a, b]])
      ∧ (∀ (s : DbState) (n : String), (dbEvent s n).2 = [] ∧ (dbEvent s n).1.armed = true)
      ∧ (∀ s : DbState, s.pending ≠ [] → dbFire s = (⟨[], false⟩, [s.pending])) := by
  intro a b hab
  refine ⟨?_, fun s n => ⟨rfl, rfl⟩, fun s h => by simp [dbFire, h]⟩
  simp [runDb, dbEvent, dbFire, addPending, hab, Ne.symm hab]

/-- Witness for C6 with the concrete names `"a"` and `"b"`. -/
theorem claim6_debounce_batch_witness :
    runDb ⟨[], false⟩ [.ev "a", .ev "b", .ev "a", .fire] = (⟨[], false⟩, [["a", "b"]]) :=
  (claim6_debounce_batch "a" "b" (by decide)).1

/-! ## Reconciliation helper lemmas -/

theorem lookup_foldl_eraseKey {α : Type} (rs : List String) (m : List (String × α))
    (k : String) :
    lookupKey (rs.foldl (fun m2 l => eraseKey m2 l) m) k =
      if k ∈ rs then none else lookupKey m k := by
  induction rs generalizing m with
  | nil => simp
  | cons r rs ih =>
    rw [List.foldl_cons, ih]
    by_cases hr : k = r
    · subst hr
      simp [lookup_eraseKey_self]
    · by_cases hmem : k ∈ rs <;>
        simp [hmem, hr, lookup_eraseKey_ne _ r k (Ne.symm hr)]

theorem mem_foldl_erase (rs : List String) (p : List String) (hnd : p.Nodup)
    (k : String) :
    k ∈ rs.foldl (fun acc x => acc.erase x) p ↔ k ∈ p ∧ k ∉ rs := by
  induction rs generalizing p with
  | nil => simp
  | cons r rs ih =>
    rw [List.foldl_cons, ih (p.erase r) (hnd.erase r)]
    rw [List.Nodup.mem_erase_iff hnd]
    simp only [List.mem_cons]
    tauto

theorem nodup_foldl_erase (rs : List String) (p : List String) (hnd : p.Nodup) :
    (rs.foldl (fun acc x => acc.erase x) p).Nodup := by
  induction rs generalizing p with
  | nil => exact hnd
  | cons r rs ih => exact ih (p.erase r) (hnd.erase r)

theorem lookup_ensureFilter_ne (m : List (String × LogFilter)) (k k2 : String)
    (h : k ≠ k2) : lookupKey (ensureFilter m k) k2 = lookupKey m k2 := by
  unfold ensureFilter
  cases lookupKey m k with
  | some f => rfl
  | none => exact lookup_setKey_ne m k k2 defaultFilter h

theorem selectLogStep_state (st : WState) (name : String) :
    (selectLogStep st name).1 =
      { st with activeLog := name, logFilters := ensureFilter st.logFilters name } := by
  unfold selectLogStep
  cases h : lookupKey st.logContents name with
  | none => simp [h]
  | some c => by_cases hc : c = [] <;> simp [h, hc]

theorem selectLogStep_requests (st : WState) (name : String) :
    (selectLogStep st name).2 =
      if (lookupKey st.logContents name).getD [] = [] then [name] else [] := by
  unfold selectLogStep
  cases h : lookupKey st.logContents name with
  | none => simp [h]
  | some c => by_cases hc : c = [] <;> simp [h, hc]

/-! ## Claim C7 (corrected): registry reconciliation -/

/-- C7 as stated is false in its request clause: after a reachable
history in which log `b`'s content was requested but never delivered,
removing the pinned active log `a` reselects `b` and — because `b` has no
cached content — posts a `getLogContent` request for `b`, which is not a
genuinely new name (`b` was already in `allLogs`). -/
theorem claim7_counterexample :
    (applyOp (applyOp (applyOp initState (.setSessionLogs ["a", "b"]))
        (.setLogContent "a" "x".toList)) (.togglePin "a")).activeLog = "a"
    ∧ "a" ∈ (applyOp (applyOp (applyOp initState (.setSessionLogs ["a", "b"]))
        (.setLogContent "a" "x".toList)) (.togglePin "a")).pinnedLogs
    ∧ "b" ∈ (applyOp (applyOp (applyOp initState (.setSessionLogs ["a", "b"]))
        (.setLogContent "a" "x".toList)) (.togglePin "a")).allLogs
    ∧ (setSessionLogsHandler (applyOp (applyOp (applyOp initState
        (.setSessionLogs ["a", "b"])) (.setLogContent "a" "x".toList))
        (.togglePin "a")) ["b"]).2 = ["b"] := by
  refine ⟨?_, ?_, ?_, ?_⟩ <;> decide

/-- C7 amended: when the new list drops the pinned, active log, its filter
and content state are deleted, it is removed from `pinnedLogs`, and
`activeLog` is reassigned to the first entry of the new list (or cleared
when the list is empty); content is requested for the genuinely new names,
plus additionally for the newly selected first log when it has no
non-empty cached content. -/
theorem claim7_amended (st : WState) (logs : List String)
    (hnd : st.pinnedLogs.Nodup)
    (hpin : st.activeLog ∈ st.pinnedLogs)
    (hall : st.activeLog ∈ st.allLogs)
    (hgone : st.activeLog ∉ logs) :
    lookupKey (setSessionLogsHandler st logs).1.logContents st.activeLog = none
    ∧ lookupKey (setSessionLogsHandler st logs).1.logFilters st.activeLog = none
    ∧ st.activeLog ∉ (setSessionLogsHandler st logs).1.pinnedLogs
    ∧ (setSessionLogsHandler st logs).1.activeLog =
        (match logs with | [] => "" | first :: _ => first)
    ∧ (setSessionLogsHandler st logs).2 =
        logs.filter (fun l => decide (l ∉ st.allLogs)) ++
          (match logs with
           | [] => []
           | first :: _ =>
             if (lookupKey st.logContents first).getD [] = [] then [first] else []) := by
  have hrem : st.activeLog ∈ st.allLogs.filter (fun l => decide (l ∉ logs)) := by
    simp [List.mem_filter, hall, hgone]
  cases logs with
  | nil =>
    refine ⟨?_, ?_, ?_, rfl, by simp [setSessionLogsHandler]⟩
    · show lookupKey ((st.allLogs.filter (fun l => decide (l ∉ ([] : List String)))).foldl
          (fun m2 l => eraseKey m2 l) st.logContents) st.activeLog = none
      rw [lookup_foldl_eraseKey, if_pos hrem]
    · show lookupKey ((st.allLogs.filter (fun l => decide (l ∉ ([] : List String)))).foldl
          (fun m2 l => eraseKey m2 l) st.logFilters) st.activeLog = none
      rw [lookup_foldl_eraseKey, if_pos hrem]
    · show st.activeLog ∉ (st.allLogs.filter (fun l => decide (l ∉ ([] : List String)))).foldl
          (fun acc x => acc.erase x) st.pinnedLogs
      rw [mem_foldl_erase _ _ hnd]
      exact fun h => h.2 hrem
  | cons first rest =>
    have hne : st.activeLog ≠ first := by
      intro h
      exact hgone (h ▸ List.mem_cons_self first rest)
    have hcond : (reconcileLogs st (first :: rest)).activeLog = "" ∨
        (reconcileLogs st (first :: rest)).activeLog ∉ (first :: rest) :=
      Or.inr hgone
    have hfirstkeep : first ∉ st.allLogs.filter
        (fun l => decide (l ∉ (first :: rest))) := by
      simp [List.mem_filter]
    have hstep : setSessionLogsHandler st (first :: rest) =
        ((selectLogStep (reconcileLogs st (first :: rest)) first).1,
         (first :: rest).filter (fun l => decide (l ∉ st.allLogs)) ++
           (selectLogStep (reconcileLogs st (first :: rest)) first).2) := by
      simp only [setSessionLogsHandler, if_pos hcond]
    rw [hstep]
    rw [selectLogStep_state, selectLogStep_requests]
    refine ⟨?_, ?_, ?_, rfl, ?_⟩
    · show lookupKey ((st.allLogs.filter (fun l => decide (l ∉ (first :: rest)))).foldl
          (fun m2 l => eraseKey m2 l) st.logContents) st.activeLog = none
      rw [lookup_foldl_eraseKey, if_pos hrem]
    · show lookupKey (ensureFilter (reconcileLogs st (first :: rest)).logFilters first)
          st.activeLog = none
      rw [lookup_ensureFilter_ne _ _ _ (Ne.symm hne)]
      show lookupKey ((st.allLogs.filter (fun l => decide (l ∉ (first :: rest)))).foldl
          (fun m2 l => eraseKey m2 l) st.logFilters) st.activeLog = none
      rw [lookup_foldl_eraseKey, if_pos hrem]
    · show st.activeLog ∉ (st.allLogs.filter (fun l => decide (l ∉ (first :: rest)))).foldl
          (fun acc x => acc.erase x) st.pinnedLogs
      rw [mem_foldl_erase _ _ hnd]
      exact fun h => h.2 hrem
    · have hc : lookupKey (reconcileLogs st (first :: rest)).logContents first =
          lookupKey st.logContents first := by
        show lookupKey ((st.allLogs.filter (fun l => decide (l ∉ (first :: rest)))).foldl
            (fun m2 l => eraseKey m2 l) st.logContents) first =
          lookupKey st.logContents first
        rw [lookup_foldl_eraseKey, if_neg hfirstkeep]
      rw [hc]

/-- Witness for C7 amended: removing the pinned active log `a` while `b`
stays listed with no cached content clears `a`'s state, unpins it, selects
`b`, and posts a (non-new) request for `b`. -/
theorem claim7_amended_witness :
    lookupKey (setSessionLogsHandler (WState.mk "" "a" ["a"] ["a", "b"]
        [("a", "x".toList)] [("a", defaultFilter)] []) ["b"]).1.logContents "a" = none
    ∧ lookupKey (setSessionLogsHandler (WState.mk "" "a" ["a"] ["a", "b"]
        [("a", "x".toList)] [("a", defaultFilter)] []) ["b"]).1.logFilters "a" = none
    ∧ "a" ∉ (setSessionLogsHandler (WState.mk "" "a" ["a"] ["a", "b"]
        [("a", "x".toList)] [("a", defaultFilter)] []) ["b"]).1.pinnedLogs
    ∧ (setSessionLogsHandler (WState.mk "" "a" ["a"] ["a", "b"]
        [("a", "x".toList)] [("a", defaultFilter)] []) ["b"]).1.activeLog = "b"
    ∧ (setSessionLogsHandler (WState.mk "" "a" ["a"] ["a", "b"]
        [("a", "x".toList)] [("a", defaultFilter)] []) ["b"]).2 = ["b"] := by
  have h := claim7_amended (WState.mk "" "a" ["a"] ["a", "b"]
    [("a", "x".toList)] [("a", defaultFilter)] []) ["b"]
    (by decide) (by decide) (by decide) (by decide)
  exact ⟨h.1, h.2.1, h.2.2.1, h.2.2.2.1, h.2.2.2.2⟩

/-! ## Claim C8: the reachable-state invariants -/

/-- The inductive invariant: the pinned list has no duplicates, every
pinned name is listed, and a non-empty active log is listed. -/
def GoodState (st : WState) : Prop :=
  st.pinnedLogs.Nodup
  ∧ (∀ x ∈ st.pinnedLogs, x ∈ st.allLogs)
  ∧ (st.activeLog ≠ "" → st.activeLog ∈ st.allLogs)

theorem good_init : GoodState initState :=
  ⟨List.nodup_nil, by simp [initState], fun h => absurd rfl h⟩

theorem setLogContent_skeleton (st : WState) (n : String) (c : List Char) :
    ((setLogContentHandler st n c).1).pinnedLogs = st.pinnedLogs
    ∧ ((setLogContentHandler st n c).1).allLogs = st.allLogs
    ∧ ((setLogContentHandler st n c).1).activeLog = st.activeLog := by
  by_cases h : st.activeLog = n <;> simp [setLogContentHandler, h]

theorem setFilterText_skeleton (st : WState) (t : List Char) :
    (setFilterTextStep st t).pinnedLogs = st.pinnedLogs
    ∧ (setFilterTextStep st t).allLogs = st.allLogs
    ∧ (setFilterTextStep st t).activeLog = st.activeLog := by
  by_cases h : st.activeLog = "" <;> simp [setFilterTextStep, h]

theorem toggleSeverity_skeleton (st : WState) (sev : String) :
    (toggleSeverityStep st sev).pinnedLogs = st.pinnedLogs
    ∧ (toggleSeverityStep st sev).allLogs = st.allLogs
    ∧ (toggleSeverityStep st sev).activeLog = st.activeLog := by
  by_cases h : st.activeLog = "" <;> simp [toggleSeverityStep, h]

theorem good_step (s : WState) (op : WOp) (hg : GoodState s) (hv : ValidOp s op) :
    GoodState (applyOp s op) := by
  obtain ⟨hnd, hsub, hact⟩ := hg
  cases op with
  | setSessionLogs logs =>
    have hpin2 : ∀ x ∈ (reconcileLogs s logs).pinnedLogs, x ∈ logs := by
      intro x hx
      rw [show (reconcileLogs s logs).pinnedLogs =
          (s.allLogs.filter (fun l => decide (l ∉ logs))).foldl
            (fun acc y => acc.erase y) s.pinnedLogs from rfl] at hx
      rw [mem_foldl_erase _ _ hnd] at hx
      obtain ⟨hxp, hxr⟩ := hx
      by_contra hxl
      exact hxr (by simp [List.mem_filter, hsub x hxp, hxl])
    have hnd2 : (reconcileLogs s logs).pinnedLogs.Nodup := nodup_foldl_erase _ _ hnd
    cases logs with
    | nil =>
      exact ⟨hnd2, fun x hx => hpin2 x hx, fun h => absurd rfl h⟩
    | cons first rest =>
      by_cases hcond : (reconcileLogs s (first :: rest)).activeLog = "" ∨
          (reconcileLogs s (first :: rest)).activeLog ∉ (first :: rest)
      · have hred : applyOp s (.setSessionLogs (first :: rest)) =
            (selectLogStep (reconcileLogs s (first :: rest)) first).1 := by
          simp only [applyOp, setSessionLogsHandler, if_pos hcond]
        rw [hred, selectLogStep_state]
        exact ⟨hnd2, fun x hx => hpin2 x hx,
               fun _ => List.mem_cons_self first rest⟩
      · have hred : applyOp s (.setSessionLogs (first :: rest)) =
            reconcileLogs s (first :: rest) := by
          simp only [applyOp, setSessionLogsHandler, if_neg hcond]
        rw [hred]
        push_neg at hcond
        exact ⟨hnd2, fun x hx => hpin2 x hx, fun _ => hcond.2⟩
  | setLogContent n c =>
    obtain ⟨h1, h2, h3⟩ := setLogContent_skeleton s n c
    refine ⟨?_, ?_, ?_⟩
    · show ((setLogContentHandler s n c).1).pinnedLogs.Nodup
      rw [h1]; exact hnd
    · intro x hx
      show x ∈ ((setLogContentHandler s n c).1).allLogs
      rw [h2]
      exact hsub x (h1 ▸ hx)
    · intro hne
      show ((setLogContentHandler s n c).1).activeLog ∈
        ((setLogContentHandler s n c).1).allLogs
      rw [h2, h3]
      have hne2 : s.activeLog ≠ "" := by
        rw [show (applyOp s (WOp.setLogContent n c)).activeLog = s.activeLog from h3] at hne
        exact hne
      exact hact hne2
  | selectLog n =>
    have hnall : n ∈ s.allLogs := by
      cases hv with
      | inl h => exact hsub n h
      | inr h => exact h
    rw [show applyOp s (.selectLog n) = (selectLogStep s n).1 from rfl,
        selectLogStep_state]
    exact ⟨hnd, hsub, fun _ => hnall⟩
  | togglePin n =>
    by_cases h : n ∈ s.pinnedLogs
    · have hred : applyOp s (.togglePin n) =
          { s with pinnedLogs := s.pinnedLogs.erase n } := by
        simp only [applyOp, togglePinStep, if_pos h]
      rw [hred]
      exact ⟨hnd.erase n, fun x hx => hsub x (List.erase_subset n s.pinnedLogs hx), hact⟩
    · have hred : applyOp s (.togglePin n) =
          { s with pinnedLogs := s.pinnedLogs ++ [n] } := by
        simp only [applyOp, togglePinStep, if_neg h]
      rw [hred]
      have hn : n ∈ s.allLogs := (hv : n ∈ s.pinnedLogs ∨ n ∈ s.allLogs).resolve_left h
      refine ⟨?_, ?_, hact⟩
      · refine List.Nodup.append hnd (List.nodup_singleton n) ?_
        intro a ha hb
        rw [List.mem_singleton] at hb
        subst hb
        exact h ha
      · intro x hx
        rcases List.mem_append.mp hx with hx | hx
        · exact hsub x hx
        · rw [List.mem_singleton] at hx
          subst hx
          exact hn
  | setFilterText t =>
    obtain ⟨h1, h2, h3⟩ := setFilterText_skeleton s t
    refine ⟨?_, ?_, ?_⟩
    · show (setFilterTextStep s t).pinnedLogs.Nodup
      rw [h1]; exact hnd
    · intro x hx
      show x ∈ (setFilterTextStep s t).allLogs
      rw [h2]
      exact hsub x (h1 ▸ hx)
    · intro hne
      show (setFilterTextStep s t).activeLog ∈ (setFilterTextStep s t).allLogs
      rw [h2, h3]
      have hne2 : s.activeLog ≠ "" := by
        rw [show (applyOp s (WOp.setFilterText t)).activeLog = s.activeLog from h3] at hne
        exact hne
      exact hact hne2
  | toggleSeverity sev =>
    obtain ⟨h1, h2, h3⟩ := toggleSeverity_skeleton s sev
    refine ⟨?_, ?_, ?_⟩
    · show (toggleSeverityStep s sev).pinnedLogs.Nodup
      rw [h1]; exact hnd
    · intro x hx
      show x ∈ (toggleSeverityStep s sev).allLogs
      rw [h2]
      exact hsub x (h1 ▸ hx)
    · intro hne
      show (toggleSeverityStep s sev).activeLog ∈ (toggleSeverityStep s sev).allLogs
      rw [h2, h3]
      have hne2 : s.activeLog ≠ "" := by
        rw [show (applyOp s (WOp.toggleSeverity sev)).activeLog = s.activeLog from h3] at hne
        exact hne
      exact hact hne2
  | reset =>
    exact ⟨List.nodup_nil, by simp [applyOp, resetStep], fun h => absurd rfl h⟩

theorem good_reachable (st : WState) (h : Reachable st) : GoodState st := by
  induction h with
  | init => exact good_init
  | step hr hv ih => exact good_step _ _ ih hv

/-- C8 as stated is false: its third invariant (no filter/content state
for unlisted names) is violated by a reachable trace.  `a` is listed and
its content requested, the list update to `[]` removes it, and the stale
`setLogContent` response arriving afterwards is cached unconditionally,
leaving content state for a name absent from `allLogs`. -/
theorem claim8_counterexample :
    Reachable (applyOp (applyOp (applyOp initState (.setSessionLogs ["a"]))
        (.setSessionLogs [])) (.setLogContent "a" "x".toList))
    ∧ lookupKey (applyOp (applyOp (applyOp initState (.setSessionLogs ["a"]))
        (.setSessionLogs [])) (.setLogContent "a" "x".toList)).logContents "a" =
      some "x".toList
    ∧ "a" ∉ (applyOp (applyOp (applyOp initState (.setSessionLogs ["a"]))
        (.setSessionLogs [])) (.setLogContent "a" "x".toList)).allLogs :=
  ⟨Reachable.step (Reachable.step (Reachable.step Reachable.init trivial) trivial)
      trivial,
   by decide, by decide⟩

/-- C8 amended: in every reachable state the first two data-model
invariants hold — every pinned name appears in `allLogs` and a non-empty
`activeLog` appears in `allLogs` — while the third fails: a stale content
response for a removed log is cached (and the reset path lazily creates a
filter under the empty name), so content/filter state can exist for names
absent from `allLogs`. -/
theorem claim8_amended (st : WState) (h : Reachable st) :
    (∀ x ∈ st.pinnedLogs, x ∈ st.allLogs)
    ∧ (st.activeLog ≠ "" → st.activeLog ∈ st.allLogs) :=
  ⟨(good_reachable st h).2.1, (good_reachable st h).2.2⟩

/-- Witness for C8 amended at the reachable state in which `b` is pinned
and active. -/
theorem claim8_amended_witness :
    (∀ x ∈ (applyOp (applyOp initState (.setSessionLogs ["b"]))
        (.togglePin "b")).pinnedLogs,
      x ∈ (applyOp (applyOp initState (.setSessionLogs ["b"]))
        (.togglePin "b")).allLogs)
    ∧ ((applyOp (applyOp initState (.setSessionLogs ["b"]))
          (.togglePin "b")).activeLog ≠ "" →
        (applyOp (applyOp initState (.setSessionLogs ["b"]))
          (.togglePin "b")).activeLog ∈
          (applyOp (applyOp initState (.setSessionLogs ["b"]))
            (.togglePin "b")).allLogs) :=
  claim8_amended _
    (Reachable.step (Reachable.step Reachable.init trivial) (Or.inr (by decide)))

/-! ## Claim C9 (corrected): filename glob matching -/

/-- The translated-regex tokens of one benign pattern character. -/
def globToks (c : Char) : List RTok :=
  if c = '.' then [RTok.atom (RAtom.lit '.')]
  else if c = '*' then [RTok.atom RAtom.dot, RTok.star]
  else if c = '?' then [RTok.atom RAtom.dot]
  else [RTok.atom (RAtom.lit c)]

/-- The parsed item of one benign pattern character. -/
def globItem (c : Char) : RAtom × RQuant :=
  if c = '*' then (RAtom.dot, RQuant.star)
  else if c = '?' then (RAtom.dot, RQuant.one)
  else (RAtom.lit c, RQuant.one)

theorem benignPattern_cons (c : Char) (ps : List Char) (h : benignPattern (c :: ps) = true) :
    (¬ c = '+' ∧ ¬ c = '(' ∧ ¬ c = ')' ∧ ¬ c = '[' ∧ ¬ c = ']' ∧ ¬ c = '{' ∧
      ¬ c = '}' ∧ ¬ c = '|' ∧ ¬ c = '^' ∧ ¬ c = '$' ∧ ¬ c = '\\') ∧
      benignPattern ps = true := by
  simp only [benignPattern, List.all_cons, Bool.and_eq_true, Bool.not_eq_true',
    Bool.or_eq_false_iff, decide_eq_false_iff_not] at h
  refine ⟨?_, by simpa [benignPattern] using h.2⟩
  have h1 := h.1
  tauto

theorem globToRegex_cons (c : Char) (ps : List Char) :
    globToRegex (c :: ps) =
      (if c = '.' then ['\\', '.']
       else if c = '*' then ['.', '*']
       else if c = '?' then ['.']
       else [c]) ++ globToRegex ps := by
  simp [globToRegex]

theorem lexRegex_globToRegex (pat : List Char) (hb : benignPattern pat = true) :
    lexRegex (globToRegex pat) = some ((pat.map globToks).flatten) := by
  induction pat with
  | nil => rfl
  | cons c ps ih =>
    obtain ⟨⟨h1, h2, h3, h4, h5, h6, h7, h8, h9, h10, h11⟩, hbps⟩ :=
      benignPattern_cons c ps hb
    rw [globToRegex_cons]
    by_cases hdot : c = '.'
    · subst hdot
      simp [lexRegex, ih hbps, globToks]
    · by_cases hstar : c = '*'
      · subst hstar
        simp [lexRegex, ih hbps, globToks]
      · by_cases hq : c = '?'
        · subst hq
          simp [lexRegex, ih hbps, globToks]
        · simp [lexRegex, ih hbps, globToks, hdot, hstar, hq,
            h1, h2, h3, h4, h5, h6, h7, h8, h9, h10, h11]

theorem globToks_shape (c : Char) : ∃ a t, globToks c = RTok.atom a :: t := by
  unfold globToks
  by_cases h1 : c = '.'
  · exact ⟨RAtom.lit '.', [], by simp [h1]⟩
  · by_cases h2 : c = '*'
    · exact ⟨RAtom.dot, [RTok.star], by simp [h1, h2]⟩
    · by_cases h3 : c = '?'
      · exact ⟨RAtom.dot, [], by simp [h1, h2, h3]⟩
      · exact ⟨RAtom.lit c, [], by simp [h1, h2, h3]⟩

theorem groupItems_globToks (pat : List Char) :
    groupItems ((pat.map globToks).flatten) = some (pat.map globItem) := by
  induction pat with
  | nil => rfl
  | cons c ps ih =>
    have hshape : (ps.map globToks).flatten = [] ∨
        ∃ a t, (ps.map globToks).flatten = RTok.atom a :: t := by
      cases ps with
      | nil => exact Or.inl rfl
      | cons c2 ps2 =>
        obtain ⟨a, t, ht⟩ := globToks_shape c2
        exact Or.inr ⟨a, t ++ (ps2.map globToks).flatten,
          by simp [ht]⟩
    rw [List.map_cons, List.flatten_cons]
    by_cases h2 : c = '*'
    · subst h2
      simp [globToks, globItem, groupItems, ih]
    · by_cases h3 : c = '?'
      · subst h3
        rcases hshape with h | ⟨a, t, h⟩
        · rw [show globToks '?' = [RTok.atom RAtom.dot] from rfl, List.cons_append,
            List.nil_append, h]
          rw [h] at ih
          have hmap : List.map globItem ps = [] := by
            simp only [groupItems, Option.some.injEq] at ih
            exact ih.symm
          simp [groupItems, globItem, hmap]
        · rw [show globToks '?' = [RTok.atom RAtom.dot] from rfl, List.cons_append,
            List.nil_append, h]
          rw [h] at ih
          simp [groupItems, globItem, ih]
      · have hgt : globToks c = [RTok.atom (RAtom.lit c)] := by
          by_cases h1 : c = '.' <;> simp [globToks, h1, h2, h3]
        have hgi : globItem c = (RAtom.lit c, RQuant.one) := by
          simp [globItem, h2, h3]
        rcases hshape with h | ⟨a, t, h⟩
        · rw [hgt, List.cons_append, List.nil_append, h]
          rw [h] at ih
          have hmap : List.map globItem ps = [] := by
            simp only [groupItems, Option.some.injEq] at ih
            exact ih.symm
          simp [groupItems, hgi, hmap]
        · rw [hgt, List.cons_append, List.nil_append, h]
          rw [h] at ih
          simp [groupItems, hgi, ih]

theorem parseItems_globToRegex (pat : List Char) (hb : benignPattern pat = true) :
    parseItems (globToRegex pat) = some (pat.map globItem) := by
  simp [parseItems, lexRegex_globToRegex pat hb, groupItems_globToks pat]

theorem matchItemsF_globSpec (f : Nat) :
    ∀ (pat s : List Char), benignPattern pat = true →
      (∀ c ∈ s, isRegexNewline c = false) →
      matchItemsF f (pat.map globItem) s = globMatchSpecF f pat s := by
  induction f with
  | zero =>
    intro pat s _ _
    rfl
  | succ f ih =>
    intro pat s hb hs
    cases pat with
    | nil => cases s <;> rfl
    | cons c ps =>
      have hbps : benignPattern ps = true := (benignPattern_cons c ps hb).2
      by_cases h1 : c = '*'
      · subst h1
        cases s with
        | nil =>
          simp [matchItemsF, globMatchSpecF, globItem,
            ih ps [] hbps (by simp)]
        | cons d s2 =>
          have hd : isRegexNewline d = false := hs d (List.mem_cons_self d s2)
          have hs2 : ∀ c2 ∈ s2, isRegexNewline c2 = false :=
            fun c2 hc2 => hs c2 (List.mem_cons_of_mem d hc2)
          simp only [List.map_cons, globItem, if_pos rfl, matchItemsF,
            globMatchSpecF, atomMatch, hd]
          rw [show matchItemsF f (ps.map globItem) (d :: s2) =
              globMatchSpecF f ps (d :: s2) from ih ps (d :: s2) hbps hs]
          rw [show matchItemsF f ((RAtom.dot, RQuant.star) :: ps.map globItem) s2 =
              globMatchSpecF f ('*' :: ps) s2 from by
            have := ih ('*' :: ps) s2 hb hs2
            simpa [globItem] using this]
          simp
      · by_cases h2 : c = '?'
        · subst h2
          cases s with
          | nil => simp [matchItemsF, globMatchSpecF, globItem, h1]
          | cons d s2 =>
            have hd : isRegexNewline d = false := hs d (List.mem_cons_self d s2)
            have hs2 : ∀ c2 ∈ s2, isRegexNewline c2 = false :=
              fun c2 hc2 => hs c2 (List.mem_cons_of_mem d hc2)
            simp [matchItemsF, globMatchSpecF, globItem, atomMatch, hd, h1,
              ih ps s2 hbps hs2]
        · have hgi : globItem c = (RAtom.lit c, RQuant.one) := by
            simp [globItem, h1, h2]
          cases s with
          | nil => simp [matchItemsF, globMatchSpecF, hgi, h1, h2]
          | cons d s2 =>
            have hs2 : ∀ c2 ∈ s2, isRegexNewline c2 = false :=
              fun c2 hc2 => hs c2 (List.mem_cons_of_mem d hc2)
            simp [matchItemsF, globMatchSpecF, hgi, atomMatch, h1, h2,
              ih ps s2 hbps hs2]

theorem testPatterns_benign (filename : List Char) (pats : List (List Char))
    (hb : ∀ p ∈ pats, benignPattern p = true)
    (hs : ∀ c ∈ filename, isRegexNewline c = false) :
    testPatterns filename pats =
      some (pats.any (fun pat => globMatchSpec pat filename)) := by
  induction pats with
  | nil => rfl
  | cons p rest ih =>
    have hbp : benignPattern p = true := hb p (List.mem_cons_self p rest)
    have hmatch : matchItems (p.map globItem) filename = globMatchSpec p filename := by
      unfold matchItems globMatchSpec
      rw [List.length_map]
      exact matchItemsF_globSpec _ p filename hbp hs
    simp only [testPatterns, parseItems_globToRegex p hbp]
    rw [hmatch]
    by_cases hg : globMatchSpec p filename = true
    · simp [hg]
    · have hg2 : globMatchSpec p filename = false := by
        revert hg
        cases globMatchSpec p filename <;> simp
      simp [hg2, ih (fun q hq => hb q (List.mem_cons_of_mem p hq))]

/-- C9 as stated is false on the code: the translation escapes only `.`,
so a regex metacharacter in a pattern reaches the compiled regex
unescaped.  The pattern list `"a+.log"` trims to the single pattern
`a+.log`; the source compiles it to `^a+\.log$` and matches `aaa.log`,
while under the claim's glob reading (`*` any run, `?` exactly one
character, every other character itself) that pattern matches only the
literal name `a+.log` and not `aaa.log`. -/
theorem claim9_counterexample :
    patternList "a+.log".toList = ["a+.log".toList]
    ∧ matchesFilePattern "aaa.log".toList "a+.log".toList = some true
    ∧ globMatchSpec "a+.log".toList "aaa.log".toList = false
    ∧ globMatchSpec "a+.log".toList "a+.log".toList = true := by
  refine ⟨?_, ?_, ?_, ?_⟩ <;> decide

/-- C9 amended: for pattern lists whose trimmed patterns contain no
regex metacharacter other than `.` `*` `?`, and filenames without line
terminators, the match succeeds exactly when some non-empty trimmed
pattern — `*` standing for any run of characters and `?` for exactly one
— matches the whole filename case-insensitively; the spec's examples
hold, and an all-empty pattern list matches nothing.  Patterns outside
that fragment reach the regex engine with their metacharacters unescaped
and diverge from the glob reading (or make the regex constructor throw). -/
theorem claim9_amended :
    (∀ (filename patterns : List Char),
        (∀ pat ∈ patternList patterns, benignPattern pat = true) →
        (∀ c ∈ filename, isRegexNewline c = false) →
        matchesFilePattern filename patterns =
          some ((patternList patterns).any (fun pat => globMatchSpec pat filename)))
    ∧ matchesFilePattern "app.LOG".toList "*.log".toList = some true
    ∧ matchesFilePattern "app.log.bak".toList "*.log".toList = some false
    ∧ matchesFilePattern "app1.log".toList "app?.log".toList = some true
    ∧ matchesFilePattern "app12.log".toList "app?.log".toList = some false
    ∧ matchesFilePattern "app.log".toList "*.log, *.txt".toList = some true
    ∧ matchesFilePattern "readme.txt".toList "*.log, *.txt".toList = some true
    ∧ (∀ filename : List Char, matchesFilePattern filename "".toList = some false) := by
  refine ⟨?_, by decide, by decide, by decide, by decide, by decide, by decide, ?_⟩
  · intro filename patterns hb hs
    exact testPatterns_benign filename (patternList patterns) hb hs
  · intro filename
    rfl

/-- Witness for C9 amended at a benign two-pattern list. -/
theorem claim9_amended_witness :
    matchesFilePattern "app.LOG".toList "*.log, *.txt".toList =
      some ((patternList "*.log, *.txt".toList).any
        (fun pat => globMatchSpec pat "app.LOG".toList)) :=
  claim9_amended.1 "app.LOG".toList "*.log, *.txt".toList (by decide) (by decide)

/-! ## Claim C10: the two distinguishable empty outcomes -/

/-- C10: the filtered render yields the "No content" empty state exactly
for empty input, the distinct "No matching log lines" state exactly for
non-empty input whose lines are all excluded, and the two signals are
distinct; concretely, an all-excluded non-empty log and an empty log
produce the two different signals. -/
theorem claim10_empty_states :
    (∀ (f : LogFilter) (content : List Char),
        (formatLogContent f content = .noContent ↔ content = [])
        ∧ (formatLogContent f content = .noMatching ↔
            content ≠ [] ∧ formatLinesAux f (lowerL f.text) (splitOnNl content) 1 "" = []))
    ∧ RenderResult.noContent ≠ RenderResult.noMatching
    ∧ formatLogContent ⟨[], ["log-warn"]⟩ "[ERROR] boom".toList = .noMatching
    ∧ formatLogContent ⟨[], ["log-warn"]⟩ [] = .noContent := by
  refine ⟨?_, by decide, by decide, by decide⟩
  intro f content
  by_cases h : content = [] <;>
    by_cases h2 : formatLinesAux f (lowerL f.text) (splitOnNl content) 1 "" = [] <;>
      simp [formatLogContent, h, h2]

end LogViewer
